import Mathlib

/-!
# Verification of the zone-state reconciliation and debounced broadcast engine

Shallow embedding of `src/roon/mod.rs` (the `RoonClient` event handler spawned
in `connect`, plus the accessor methods).  The tokio event loop is modelled as
a pure step function over an explicit `ClientState`; the spawned delayed tasks
(`pending_stops` stop-settle tasks and the fire-and-forget dCS format-delay
broadcast) are modelled as entries of a task list consumed by explicit
timer-fire events, so that cancellation (`JoinHandle::abort`) is the removal
of the entry before its fire event arrives.  Broadcasts that the code spawns
with no sleep are emitted synchronously, reading the snapshot current at that
moment (the sequential schedule of the single consumer task).  The external
dCS HTTP fetch performed while building view models is represented by an
oracle value `dcsFmt : Option String` supplied to the step function.
-/

namespace RoonRd

/-- `roon_api::transport::State`: lifecycle state of a zone. -/
inductive ZState
  | playing
  | paused
  | loading
  | stopped
deriving DecidableEq, Repr

/-- `format!("{:?}", state)`: the debug rendering used for `WsZoneData.state`. -/
def stateRepr : ZState → String
  | .playing => "Playing"
  | .paused => "Paused"
  | .loading => "Loading"
  | .stopped => "Stopped"

/-- ASCII lowercasing of one character (all characters compared here are
ASCII), as performed by Rust's `to_lowercase`. -/
def charLower (c : Char) : Char :=
  if 'A' ≤ c ∧ c ≤ 'Z' then Char.ofNat (c.toNat + 32) else c

/-- Rust `str::to_lowercase` on the ASCII strings involved. -/
def strToLower (s : String) : String := ⟨s.data.map charLower⟩

/-- Rust `str::starts_with`. -/
def strStartsWith (s p : String) : Bool := p.data.isPrefixOf s.data

/-- `roon_api::transport::Status` of a source control (only `Selected` is inspected). -/
inductive SCStatus
  | selected
  | deselected
  | standby
  | indeterminate
deriving DecidableEq, Repr

/-- A selectable source control of an output. -/
structure SourceControl where
  display_name : String
  status : SCStatus
deriving DecidableEq, Repr

/-- Volume info of an output (only `is_muted` is inspected). -/
structure Volume where
  is_muted : Option Bool
deriving DecidableEq, Repr

/-- A member output of a zone. -/
structure Output where
  output_id : String
  display_name : String
  volume : Option Volume
  source_controls : Option (List SourceControl)
deriving DecidableEq, Repr

/-- The three display lines of a now-playing descriptor. -/
structure ThreeLine where
  line1 : String
  line2 : String
  line3 : String
deriving DecidableEq, Repr

/-- `now_playing` descriptor of a zone. -/
structure NowPlaying where
  three_line : ThreeLine
  seek_position : Option Int
  length : Option Nat
  image_key : Option String
deriving DecidableEq, Repr

/-- `roon_api::transport::Zone`, restricted to the fields the client reads. -/
structure Zone where
  zone_id : String
  display_name : String
  state : ZState
  now_playing : Option NowPlaying
  outputs : List Output
deriving DecidableEq, Repr

/-- `WsZoneData`: simplified zone data for WebSocket updates and HTTP responses. -/
structure WsZoneData where
  zone_id : String
  zone_name : String
  state : String
  track : Option String
  artist : Option String
  album : Option String
  position_seconds : Option Int
  length_seconds : Option Nat
  image_key : Option String
  is_muted : Option Bool
  dcs_format : Option String
deriving DecidableEq, Repr

/-- `ImageData`: image bytes with content type. -/
structure ImageData where
  content_type : String
  data : List Nat
deriving DecidableEq, Repr

/-- Identifies which send site of the code emitted a `ZonesChanged` broadcast
(the five `ws_tx.send(WsMessage::ZonesChanged ...)` sites, each of which logs a
distinct debug line).  Model instrumentation only; not part of the wire format. -/
inductive Trigger
  | doubleStop (zone_id : String)
  | delayedStop (zone_id : String)
  | dcsDelay
  | immediate
  | removal
deriving DecidableEq, Repr

/-- `WsMessage`: the broadcast message union. -/
inductive Msg
  | zonesChanged (trigger : Trigger) (now_playing : List WsZoneData)
      (raw_zones : List Zone) (raw_json : Option String)
  | connectionChanged (connected : Bool)
  | seekUpdated (zone_id : String) (seek_position : Option Int) (queue_time_remaining : Int)
  | queueChanged (zone_id : String)
deriving DecidableEq, Repr

/-- Kind of a spawned delayed task: a `pending_stops` entry's delayed stop
broadcast, or the fire-and-forget dCS format-delay broadcast. -/
inductive TaskKind
  | stopSettle (zone_id : String)
  | formatSettle
deriving DecidableEq, Repr

/-- A live spawned delayed task (a tokio `JoinHandle` that has not yet run
and has not been aborted), identified by a unique task id. -/
structure PendingTask where
  tid : Nat
  kind : TaskKind
  delay_ms : Nat
deriving DecidableEq, Repr

/-- `roon_api::transport::QueueItem`, restricted to the fields the client reads. -/
structure QueueItem where
  queue_item_id : Nat
  line1 : String
  line2 : String
deriving DecidableEq, Repr

/-- `roon_api::transport::QueueOperation`. -/
inductive QueueOp
  | insert
  | remove
deriving DecidableEq, Repr

/-- A queue delta entry (`QueueChange`). -/
structure QueueChange where
  operation : QueueOp
  index : Nat
  count : Option Nat
  items : Option (List QueueItem)
deriving DecidableEq, Repr

/-- A `ZoneSeek` entry of a zones-seek batch. -/
structure ZoneSeek where
  zone_id : String
  seek_position : Option Int
  queue_time_remaining : Int
deriving DecidableEq, Repr

/-- Delay before broadcasting when a dCS zone is playing (`DCS_UPDATE_DELAY_MS`). -/
def DCS_UPDATE_DELAY_MS : Nat := 200

/-- Delay before broadcasting a Stopped state (`STOP_BROADCAST_DELAY_MS`). -/
def STOP_BROADCAST_DELAY_MS : Nat := 500

/-! ## Association-list maps

The Rust code keys its `HashMap`s by `String`; the embedding uses association
lists whose key lists are duplicate-free (an invariant `insert`/`erase`
preserve), mirroring the map semantics. -/

/-- The zone store: zone id → zone. -/
abbrev ZoneMap := List (String × Zone)

/-- `HashMap::insert`: replace in place, or append if absent. -/
def zoneInsert : ZoneMap → String → Zone → ZoneMap
  | [], id, z => [(id, z)]
  | (k, w) :: rest, id, z =>
    if k = id then (k, z) :: rest else (k, w) :: zoneInsert rest id z

/-- `HashMap::remove` on the zone store. -/
def zoneErase : ZoneMap → String → ZoneMap
  | [], _ => []
  | (k, w) :: rest, id =>
    if k = id then zoneErase rest id else (k, w) :: zoneErase rest id

/-- `HashMap::get` on the zone store. -/
def zoneLookup : ZoneMap → String → Option Zone
  | [], _ => none
  | (k, w) :: rest, id => if k = id then some w else zoneLookup rest id

/-- Lookup in the `pending_stops` table (zone id → task id). -/
def pendLookup : List (String × Nat) → String → Option Nat
  | [], _ => none
  | (k, v) :: rest, id => if k = id then some v else pendLookup rest id

/-- `HashMap::remove` on the `pending_stops` table. -/
def pendErase : List (String × Nat) → String → List (String × Nat)
  | [], _ => []
  | (k, v) :: rest, id =>
    if k = id then pendErase rest id else (k, v) :: pendErase rest id

/-- Abort a spawned task: remove it from the live-task list by task id. -/
def taskErase : List PendingTask → Nat → List PendingTask
  | [], _ => []
  | t :: rest, tid => if t.tid = tid then taskErase rest tid else t :: taskErase rest tid

/-- Find a live task by task id. -/
def taskFind : List PendingTask → Nat → Option PendingTask
  | [], _ => none
  | t :: rest, tid => if t.tid = tid then some t else taskFind rest tid

/-- Lookup in the image cache (image key → data). -/
def imgLookup : List (String × ImageData) → String → Option ImageData
  | [], _ => none
  | (k, v) :: rest, id => if k = id then some v else imgLookup rest id

/-- `HashMap::insert` on the image cache. -/
def imgInsert : List (String × ImageData) → String → ImageData → List (String × ImageData)
  | [], id, d => [(id, d)]
  | (k, v) :: rest, id, d =>
    if k = id then (k, d) :: rest else (k, v) :: imgInsert rest id d

/-- Lookup in the queues cache (zone id → queue items). -/
def queueLookup : List (String × List QueueItem) → String → Option (List QueueItem)
  | [], _ => none
  | (k, v) :: rest, id => if k = id then some v else queueLookup rest id

/-- `HashMap::insert` on the queues cache. -/
def queueInsertQ : List (String × List QueueItem) → String → List QueueItem →
    List (String × List QueueItem)
  | [], id, q => [(id, q)]
  | (k, v) :: rest, id, q =>
    if k = id then (k, q) :: rest else (k, v) :: queueInsertQ rest id q

/-! ## Client state

`RoonClient`'s shared `Arc` fields, as one record.  The three service handles
(`image_service`, `transport_service`, `browse_service`) are `Option` values in
the code whose content is the upstream connection; only their presence matters
here, so they are modelled as Booleans.  `tasks` holds the live spawned
delayed tasks, `nextTid` supplies fresh task ids. -/
structure ClientState where
  zones : ZoneMap
  zonesRawJson : Option String
  queues : List (String × List QueueItem)
  activeQueueZone : Option String
  connected : Bool
  coreName : Option String
  images : List (String × ImageData)
  imageServiceUp : Bool
  transportServiceUp : Bool
  browseServiceUp : Bool
  pendingStops : List (String × Nat)
  tasks : List PendingTask
  nextTid : Nat
deriving DecidableEq, Repr

/-- `RoonClient::new`: everything empty / disconnected. -/
def initState : ClientState where
  zones := []
  zonesRawJson := none
  queues := []
  activeQueueZone := none
  connected := false
  coreName := none
  images := []
  imageServiceUp := false
  transportServiceUp := false
  browseServiceUp := false
  pendingStops := []
  tasks := []
  nextTid := 0

/-! ## Building view models (`build_ws_zone_data_from_zones`) -/

/-- The dCS eligibility test of `build_ws_zone_data_from_zones`:
`zone.display_name.starts_with("dCS Vivaldi") && format!("{:?}", zone.state).to_lowercase() == "playing"`. -/
def dcsEligible (z : Zone) : Bool :=
  strStartsWith z.display_name "dCS Vivaldi" && strToLower (stateRepr z.state) == "playing"

/-- Zone name composition: append the selected source control's display name in
parentheses when the first output has one. -/
def composedName (z : Zone) : String :=
  match z.outputs.head? with
  | some output =>
    match output.source_controls with
    | some scs =>
      match scs.find? (fun sc => sc.status == .selected) with
      | some sel => z.display_name ++ " (" ++ sel.display_name ++ ")"
      | none => z.display_name
    | none => z.display_name
  | none => z.display_name

/-- Build one `WsZoneData` from a zone.  `dcsFmt` is the oracle outcome of the
external `dcs::get_playback_info` HTTP fetch (already reduced to the format
string the code derives from it, `none` on failure); it is consulted only for
dCS-eligible zones. -/
def buildWsZone (dcsFmt : Option String) (z : Zone) : WsZoneData :=
  let fmt := if dcsEligible z then dcsFmt else none
  let track := z.now_playing.map (fun np => np.three_line.line1)
  let artist := z.now_playing.bind (fun np =>
    if np.three_line.line2 ≠ "" then some np.three_line.line2 else none)
  let album := z.now_playing.bind (fun np =>
    if np.three_line.line3 ≠ "" then some np.three_line.line3 else none)
  let pos := z.now_playing.bind (fun np => np.seek_position)
  let len := z.now_playing.bind (fun np => np.length)
  let ikey := z.now_playing.bind (fun np => np.image_key)
  let muted := z.outputs.findSome? (fun o => o.volume.bind (fun v => v.is_muted))
  { zone_id := z.zone_id
    zone_name := composedName z
    state := stateRepr z.state
    track := track
    artist := artist
    album := album
    position_seconds := pos
    length_seconds := len
    image_key := ikey
    is_muted := muted
    dcs_format := fmt }

/-- The zones of a snapshot, in store order (`zones.values()`). -/
def zoneVals (m : ZoneMap) : List Zone := m.map (fun p => p.2)

/-- `build_ws_zone_data_from_zones`, payload part: one `WsZoneData` per zone. -/
def buildWs (dcsFmt : Option String) (m : ZoneMap) : List WsZoneData :=
  (zoneVals m).map (buildWsZone dcsFmt)

/-! ## The zones-changed handler (`Parsed::Zones`)

Structured as the phases of the code: upsert + image-key collection, snapshot
classification, cancellation of pending stops for non-stop zones, the stopped
loop (double-stop immediate broadcast / new delayed stop task), and the
broadcast decision gated on `has_non_loading` and the dCS set. -/

/-- Upsert the batch into the store (`zone_map.insert(zone.zone_id.clone(), zone)`). -/
def snapAfter (st : ClientState) (batch : List Zone) : ZoneMap :=
  batch.foldl (fun m z => zoneInsert m z.zone_id z) st.zones

/-- One step of the image-key collection: push the zone's now-playing image
key when there is one and it is not already cached. -/
def collectStep (images : List (String × ImageData)) (acc : List String) (z : Zone) :
    List String :=
  match z.now_playing with
  | some np =>
    match np.image_key with
    | some k => if (imgLookup images k).isSome then acc else acc ++ [k]
    | none => acc
  | none => acc

/-- Collect image keys referenced by now-playing descriptors that are not yet
cached.  The code pushes one entry per referencing zone, with no
deduplication inside the batch. -/
def collectImageKeys (images : List (String × ImageData)) (batch : List Zone) : List String :=
  batch.foldl (collectStep images) []

/-- Ids of snapshot zones in `Stopped` state (`has_stopped_zones`). -/
def stoppedIds (m : ZoneMap) : List String :=
  (m.filter (fun p => p.2.state == .stopped)).map (fun p => p.1)

/-- Ids of snapshot zones in `Loading`/`Playing`/`Paused` state (`has_non_stop_zones`). -/
def nonStopIds (m : ZoneMap) : List String :=
  (m.filter (fun p => p.2.state != .stopped)).map (fun p => p.1)

/-- Ids of snapshot zones whose display name starts with `"dCS Vivaldi"` and
whose state is `Playing` (`has_dcs_playing_zones`). -/
def dcsPlayingIds (m : ZoneMap) : List String :=
  (m.filter (fun p => strStartsWith p.2.display_name "dCS Vivaldi" && p.2.state == .playing)).map
    (fun p => p.1)

/-- `has_non_loading`: at least one snapshot zone is not in `Loading` state. -/
def hasNonLoading (m : ZoneMap) : Bool :=
  m.any (fun p => p.2.state != .loading)

/-- Mutable context threaded through the stop-handling phases: the
`pending_stops` table, the live tasks, the fresh-task-id counter, and the
messages emitted so far. -/
structure Ctx where
  pending : List (String × Nat)
  tasks : List PendingTask
  nextTid : Nat
  msgs : List Msg
deriving DecidableEq, Repr

/-- Cancel the pending stop of one non-stop zone id: `pending.remove` followed
by `task.abort()`.  No message is emitted. -/
def cancelOne (c : Ctx) (id : String) : Ctx :=
  match pendLookup c.pending id with
  | some tid =>
    { c with pending := pendErase c.pending id, tasks := taskErase c.tasks tid }
  | none => c

/-- The loop over `has_non_stop_zones` cancelling pending stops. -/
def cancelPhase (ids : List String) (c : Ctx) : Ctx :=
  ids.foldl cancelOne c

/-- One iteration of the loop over `has_stopped_zones`: a pending entry means a
double stop (cancel it and broadcast immediately from the current snapshot),
otherwise spawn a new delayed stop task and record it in `pending_stops`. -/
def stopStep (dcsFmt : Option String) (snap : ZoneMap) (rawJson : Option String)
    (c : Ctx) (id : String) : Ctx :=
  match pendLookup c.pending id with
  | some tid =>
    { pending := pendErase c.pending id
      tasks := taskErase c.tasks tid
      nextTid := c.nextTid
      msgs := c.msgs ++
        [Msg.zonesChanged (.doubleStop id) (buildWs dcsFmt snap) (zoneVals snap) rawJson] }
  | none =>
    { pending := c.pending ++ [(id, c.nextTid)]
      tasks := c.tasks ++ [⟨c.nextTid, .stopSettle id, STOP_BROADCAST_DELAY_MS⟩]
      nextTid := c.nextTid + 1
      msgs := c.msgs }

/-- The loop over `has_stopped_zones`. -/
def stopPhase (dcsFmt : Option String) (snap : ZoneMap) (rawJson : Option String)
    (ids : List String) (c : Ctx) : Ctx :=
  ids.foldl (stopStep dcsFmt snap rawJson) c

/-- The broadcast decision: if the non-stop set is non-empty and some zone is
not `Loading`, either spawn the dCS format-delay broadcast task (dCS set
non-empty) or broadcast immediately. -/
def broadcastPhase (dcsFmt : Option String) (snap : ZoneMap) (rawJson : Option String)
    (nonStop dcs : List String) (c : Ctx) : Ctx :=
  if !nonStop.isEmpty && hasNonLoading snap then
    if !dcs.isEmpty then
      { c with
        tasks := c.tasks ++ [⟨c.nextTid, .formatSettle, DCS_UPDATE_DELAY_MS⟩]
        nextTid := c.nextTid + 1 }
    else
      { c with msgs := c.msgs ++
          [Msg.zonesChanged .immediate (buildWs dcsFmt snap) (zoneVals snap) rawJson] }
  else c

/-- The debounce context produced by a zones-changed batch: cancellation of
pending stops for non-stop zones, then the stopped loop, then the broadcast
decision, starting from the state's context with no messages yet. -/
def hzcCtx (dcsFmt : Option String) (st : ClientState) (batch : List Zone)
    (rawJson : Option String) : Ctx :=
  broadcastPhase dcsFmt (snapAfter st batch) rawJson (nonStopIds (snapAfter st batch))
    (dcsPlayingIds (snapAfter st batch))
    (stopPhase dcsFmt (snapAfter st batch) rawJson (stoppedIds (snapAfter st batch))
      (cancelPhase (nonStopIds (snapAfter st batch))
        ⟨st.pendingStops, st.tasks, st.nextTid, []⟩))

/-- The whole `Parsed::Zones` arm.  Returns the new state, the messages sent,
and the image keys for which a fetch request was issued (requests are issued
only when the image service handle is present). -/
def handleZonesChanged (dcsFmt : Option String) (st : ClientState) (batch : List Zone)
    (rawJson : Option String) : ClientState × List Msg × List String :=
  let snap := snapAfter st batch
  let keys := collectImageKeys st.images batch
  let reqs := if st.imageServiceUp then keys else []
  let c3 := hzcCtx dcsFmt st batch rawJson
  ({ st with
      zones := snap
      zonesRawJson := rawJson
      pendingStops := c3.pending
      tasks := c3.tasks
      nextTid := c3.nextTid },
   c3.msgs, reqs)

/-! ## The other event arms -/

/-- The `Parsed::ZonesRemoved` arm: remove each id from the store, then
broadcast the new view immediately.  Note that it does not touch
`pending_stops` or any spawned task. -/
def handleZonesRemoved (dcsFmt : Option String) (st : ClientState) (ids : List String) :
    ClientState × List Msg :=
  let zones' := ids.foldl zoneErase st.zones
  ({ st with zones := zones' },
   [Msg.zonesChanged .removal (buildWs dcsFmt zones') (zoneVals zones') st.zonesRawJson])

/-- Overwrite `now_playing.seek_position` when a now-playing descriptor is
present; otherwise leave the zone untouched. -/
def patchZ (pos : Option Int) (z : Zone) : Zone :=
  match z.now_playing with
  | some np => { z with now_playing := some { np with seek_position := pos } }
  | none => z

/-- Patch the seek position of one zone: only when the zone exists and has a
now-playing descriptor is `now_playing.seek_position` overwritten. -/
def patchSeek (m : ZoneMap) (id : String) (pos : Option Int) : ZoneMap :=
  m.map (fun p => if p.1 = id then (p.1, patchZ pos p.2) else p)

/-- One step of the zones-seek loop: patch the store and append the
`SeekUpdated` broadcast for this entry. -/
def seekStep (acc : ZoneMap × List Msg) (s : ZoneSeek) : ZoneMap × List Msg :=
  (patchSeek acc.1 s.zone_id s.seek_position,
   acc.2 ++ [Msg.seekUpdated s.zone_id s.seek_position s.queue_time_remaining])

/-- The `Parsed::ZonesSeek` arm: patch each entry's position and broadcast one
`SeekUpdated` per entry (whether or not the zone is known). -/
def handleZonesSeek (st : ClientState) (seeks : List ZoneSeek) : ClientState × List Msg :=
  let out := seeks.foldl seekStep (st.zones, [])
  ({ st with zones := out.1 }, out.2)

/-- `Vec::insert` on the cached queue.  Rust panics when the index exceeds the
length; the queue-delta inserts the code applies use in-range indices, and no
claim touches the out-of-range case, which is modelled as appending. -/
def insertAt : List QueueItem → Nat → QueueItem → List QueueItem
  | xs, 0, a => a :: xs
  | [], _ + 1, a => [a]
  | x :: xs, n + 1, a => x :: insertAt xs n a

/-- The `QueueOperation::Remove` loop: `count` times, remove at the fixed
index if it is still in bounds (`if idx < queue.len() { queue.remove(idx) }`). -/
def removeLoop (idx : Nat) : Nat → List QueueItem → List QueueItem
  | 0, q => q
  | n + 1, q => removeLoop idx n (if idx < q.length then q.eraseIdx idx else q)

/-- Apply one queue delta operation to the cached queue.  For `Remove` the
count defaults to 1 when absent (`change.count.unwrap_or(1)`). -/
def applyQueueOp (q : List QueueItem) (c : QueueChange) : List QueueItem :=
  match c.operation with
  | .insert =>
    match c.items with
    | some its =>
      (its.enum.foldl (fun acc pr => insertAt acc (c.index + pr.1) pr.2) q)
    | none => q
  | .remove => removeLoop c.index (c.count.getD 1) q

/-- The `Parsed::QueueChanges` arm: apply the delta to the active zone's cached
queue and broadcast `QueueChanged`; deltas with no active subscription or no
cached queue are dropped. -/
def handleQueueChanges (st : ClientState) (ops : List QueueChange) : ClientState × List Msg :=
  match st.activeQueueZone with
  | some zid =>
    match queueLookup st.queues zid with
    | some q =>
      let q' := ops.foldl applyQueueOp q
      ({ st with queues := queueInsertQ st.queues zid q' }, [Msg.queueChanged zid])
    | none => (st, [])
  | none => (st, [])

/-- The `Parsed::Queue` arm: store the snapshot for the active subscribed zone
(and wake the rendezvous waiters); drop it when no subscription is active.
No broadcast message is sent. -/
def handleQueueSnapshot (st : ClientState) (items : List QueueItem) : ClientState × List Msg :=
  match st.activeQueueZone with
  | some zid => ({ st with queues := queueInsertQ st.queues zid items }, [])
  | none => (st, [])

/-! ## Events and the step function -/

/-- An event consumed by the single handler task: a connection lifecycle
event, a parsed payload, or the firing of a spawned delayed task's timer
(`fire tid` represents the sleep of task `tid` elapsing; it has an effect only
if the task is still live, i.e. was not aborted). -/
inductive Event
  | registered (name : String)
  | lost
  | zonesChanged (batch : List Zone) (rawJson : Option String)
  | zonesRemoved (ids : List String)
  | zonesSeek (seeks : List ZoneSeek)
  | jpeg (key : String) (bytes : List Nat)
  | png (key : String) (bytes : List Nat)
  | queueSnapshot (items : List QueueItem)
  | queueChanges (ops : List QueueChange)
  | fire (tid : Nat)
deriving DecidableEq, Repr

/-- Run a spawned delayed task whose timer elapsed.  A `stopSettle` task
broadcasts the fire-time view and removes its `pending_stops` entry; the
`formatSettle` task broadcasts the fire-time view.  A task id that is no
longer live (aborted or already fired) does nothing. -/
def fireTask (dcsFmt : Option String) (st : ClientState) (tid : Nat) :
    ClientState × List Msg :=
  match taskFind st.tasks tid with
  | none => (st, [])
  | some t =>
    let st' := { st with tasks := taskErase st.tasks tid }
    match t.kind with
    | .stopSettle zid =>
      ({ st' with pendingStops := pendErase st'.pendingStops zid },
       [Msg.zonesChanged (.delayedStop zid) (buildWs dcsFmt st'.zones) (zoneVals st'.zones)
          st'.zonesRawJson])
    | .formatSettle =>
      (st', [Msg.zonesChanged .dcsDelay (buildWs dcsFmt st'.zones) (zoneVals st'.zones)
          st'.zonesRawJson])

/-- One step of the handler task: consume an event, returning the new state,
the broadcast messages sent, and the image keys requested.  Total: a malformed
or unrecognized event simply has no arm here, and no arm can fail. -/
def step (dcsFmt : Option String) (st : ClientState) (e : Event) :
    ClientState × List Msg × List String :=
  match e with
  | .registered nm =>
    ({ st with
        connected := true
        coreName := some nm
        imageServiceUp := true
        transportServiceUp := true
        browseServiceUp := true },
     [Msg.connectionChanged true], [])
  | .lost =>
    ({ st with
        connected := false
        coreName := none
        zones := []
        imageServiceUp := false
        transportServiceUp := false
        browseServiceUp := false },
     [Msg.connectionChanged false], [])
  | .zonesChanged batch rawJson => handleZonesChanged dcsFmt st batch rawJson
  | .zonesRemoved ids =>
    let out := handleZonesRemoved dcsFmt st ids
    (out.1, out.2, [])
  | .zonesSeek seeks =>
    let out := handleZonesSeek st seeks
    (out.1, out.2, [])
  | .jpeg key bytes =>
    ({ st with images := imgInsert st.images key ⟨"image/jpeg", bytes⟩ }, [], [])
  | .png key bytes =>
    ({ st with images := imgInsert st.images key ⟨"image/png", bytes⟩ }, [], [])
  | .queueSnapshot items =>
    let out := handleQueueSnapshot st items
    (out.1, out.2, [])
  | .queueChanges ops =>
    let out := handleQueueChanges st ops
    (out.1, out.2, [])
  | .fire tid =>
    let out := fireTask dcsFmt st tid
    (out.1, out.2, [])

/-- Run a sequence of events, accumulating the messages sent and the image
keys requested. -/
def run (dcsFmt : Option String) (st : ClientState) (evs : List Event) :
    ClientState × List Msg × List String :=
  evs.foldl
    (fun acc e =>
      let out := step dcsFmt acc.1 e
      (out.1, acc.2.1 ++ out.2.1, acc.2.2 ++ out.2.2))
    (st, [], [])

/-! ## The queue subscription method (`subscribe_to_queue`) -/

/-- An upstream transport call issued by `subscribe_to_queue`. -/
inductive UpCall
  | unsubscribeQueue
  | subscribeQueue (zone_id : String) (count : Nat)
deriving DecidableEq, Repr

/-- `RoonClient::subscribe_to_queue`: no-op when already subscribed to this
zone; otherwise unsubscribe the previous subscription (if any), subscribe to
the new zone with a page size of 50, and update the single slot.  The method
then waits up to 2 seconds for the first snapshot; the wait mutates nothing
and the method returns without error whether or not data arrived, so the wait
does not appear in the state transition. -/
def subscribeToQueue (st : ClientState) (zone_id : String) : ClientState × List UpCall :=
  if st.transportServiceUp then
    if st.activeQueueZone = some zone_id then (st, [])
    else
      ({ st with activeQueueZone := some zone_id },
       (if st.activeQueueZone.isSome then [UpCall.unsubscribeQueue] else []) ++
         [UpCall.subscribeQueue zone_id 50])
  else (st, [])

/-! ## Invariants and helper predicates used by the theorems -/

/-- Erase the seek position of a zone's now-playing descriptor.  Two zones
agree after `clearSeek` exactly when they differ at most in that field. -/
def clearSeek (z : Zone) : Zone :=
  { z with now_playing := z.now_playing.map (fun np => { np with seek_position := none }) }

/-- Number of upstream subscribe calls in a call list. -/
def countSubs (cs : List UpCall) : Nat :=
  cs.countP (fun c => match c with | .subscribeQueue _ _ => true | _ => false)

/-- The zone a task belongs to (`stopSettle` tasks only). -/
def kindZone : TaskKind → Option String
  | .stopSettle zid => some zid
  | .formatSettle => none

/-- Well-formedness of the debounce bookkeeping: `pending_stops` keys are
distinct, live task ids are distinct and below the fresh counter, every
`pending_stops` entry points at a live `stopSettle` task with the stop delay,
and every live `stopSettle` task is pointed at by its zone's entry. -/
def Ctx.Inv (c : Ctx) : Prop :=
  (c.pending.map Prod.fst).Nodup ∧
  (c.tasks.map PendingTask.tid).Nodup ∧
  (∀ p ∈ c.pending, p.2 < c.nextTid ∧
    (⟨p.2, TaskKind.stopSettle p.1, STOP_BROADCAST_DELAY_MS⟩ : PendingTask) ∈ c.tasks) ∧
  (∀ t ∈ c.tasks, t.tid < c.nextTid ∧
    ∀ zid ∈ kindZone t.kind, (zid, t.tid) ∈ c.pending)

instance instDecCtxInv (c : Ctx) : Decidable (Ctx.Inv c) := by
  unfold Ctx.Inv
  infer_instance

/-- The context carried by a client state. -/
def ClientState.ctx (st : ClientState) : Ctx :=
  ⟨st.pendingStops, st.tasks, st.nextTid, []⟩

/-- Well-formedness of a client state: the debounce bookkeeping is sound and
the zone store has no duplicate identifiers. -/
def WF (st : ClientState) : Prop :=
  Ctx.Inv st.ctx ∧ (st.zones.map Prod.fst).Nodup

instance instDecWF (st : ClientState) : Decidable (WF st) := by
  unfold WF
  infer_instance

/-- Task id `tid` is dead in `c`: no live task carries it, and fresh ids will
never reuse it. -/
def DeadTid (c : Ctx) (tid : Nat) : Prop :=
  tid < c.nextTid ∧ ∀ t ∈ c.tasks, t.tid ≠ tid

/-- No emitted message is a stop broadcast (double-stop or delayed-stop) for
zone `id`. -/
def NoStopMsg (c : Ctx) (id : String) : Prop :=
  ∀ np rz rj, Msg.zonesChanged (.doubleStop id) np rz rj ∉ c.msgs ∧
    Msg.zonesChanged (.delayedStop id) np rz rj ∉ c.msgs

/-! ## Conclusion predicates of the claims -/

/-- C1 (amended): after a batch whose snapshot has `id` non-stop, the pending
stop entry for `id` is gone, its task id is dead, and firing a dead task id is
a no-op (emits nothing), so the stale stop broadcast can never be sent. -/
def C1Concl (dcsFmt : Option String) (st : ClientState) (batch : List Zone)
    (rawJson : Option String) (tid : Nat) (id : String) : Prop :=
  pendLookup (handleZonesChanged dcsFmt st batch rawJson).1.pendingStops id = none ∧
  (∀ t ∈ (handleZonesChanged dcsFmt st batch rawJson).1.tasks, t.tid ≠ tid) ∧
  (∀ s : ClientState, (∀ t ∈ s.tasks, t.tid ≠ tid) → step dcsFmt s (.fire tid) = (s, [], []))

/-- C2: for a zone id in the stopped set of the snapshot — with a pending
entry (double stop): the pending task is cancelled and a `ZonesChanged` built
from the current snapshot is broadcast immediately, leaving no pending entry;
with no pending entry: a fresh `stopSettle` task with the fixed delay is
recorded for the id and no stop broadcast (double-stop or delayed-stop) for
the id is emitted by this batch. -/
def C2Concl (dcsFmt : Option String) (st : ClientState) (batch : List Zone)
    (rawJson : Option String) (id : String) : Prop :=
  (∀ tid, pendLookup st.pendingStops id = some tid →
    Msg.zonesChanged (.doubleStop id) (buildWs dcsFmt (snapAfter st batch))
        (zoneVals (snapAfter st batch)) rawJson ∈ (handleZonesChanged dcsFmt st batch rawJson).2.1 ∧
    pendLookup (handleZonesChanged dcsFmt st batch rawJson).1.pendingStops id = none ∧
    (∀ t ∈ (handleZonesChanged dcsFmt st batch rawJson).1.tasks, t.tid ≠ tid)) ∧
  (pendLookup st.pendingStops id = none →
    (∃ tid, pendLookup (handleZonesChanged dcsFmt st batch rawJson).1.pendingStops id = some tid ∧
      (⟨tid, TaskKind.stopSettle id, STOP_BROADCAST_DELAY_MS⟩ : PendingTask) ∈
        (handleZonesChanged dcsFmt st batch rawJson).1.tasks) ∧
    (∀ np rz rj,
      Msg.zonesChanged (.doubleStop id) np rz rj ∉ (handleZonesChanged dcsFmt st batch rawJson).2.1 ∧
      Msg.zonesChanged (.delayedStop id) np rz rj ∉ (handleZonesChanged dcsFmt st batch rawJson).2.1))

/-- C4: a batch whose resulting snapshot is all-`Loading` emits no message and
schedules no new delayed task. -/
def C4Concl (dcsFmt : Option String) (st : ClientState) (batch : List Zone)
    (rawJson : Option String) : Prop :=
  (handleZonesChanged dcsFmt st batch rawJson).2.1 = [] ∧
  ∀ t ∈ (handleZonesChanged dcsFmt st batch rawJson).1.tasks, t ∈ st.tasks

/-- C7: second call with the same id is a no-op with exactly one subscribe
overall; switching zones issues exactly one unsubscribe then one subscribe and
updates the single slot; the rendezvous wait never mutates the queue cache
(so a timeout leaves the cache empty for the id, and the method is total —
it has no error outcome). -/
def C7Concl (st : ClientState) (id other : String) : Prop :=
  (subscribeToQueue (subscribeToQueue st id).1 id = ((subscribeToQueue st id).1, []) ∧
    (st.activeQueueZone ≠ some id →
      countSubs ((subscribeToQueue st id).2 ++ (subscribeToQueue (subscribeToQueue st id).1 id).2)
        = 1)) ∧
  (st.activeQueueZone = some other → other ≠ id →
    (subscribeToQueue st id).2 = [UpCall.unsubscribeQueue, UpCall.subscribeQueue id 50] ∧
    (subscribeToQueue st id).1.activeQueueZone = some id) ∧
  (subscribeToQueue st id).1.queues = st.queues

/-- C8: the zones-seek path touches no debounce bookkeeping, emits one
`SeekUpdated` per entry, changes zones at most in the seek-position field,
leaves unnamed zones and zones without a now-playing descriptor untouched. -/
def C8Concl (st : ClientState) (seeks : List ZoneSeek) : Prop :=
  (handleZonesSeek st seeks).1.pendingStops = st.pendingStops ∧
  (handleZonesSeek st seeks).1.tasks = st.tasks ∧
  (handleZonesSeek st seeks).1.nextTid = st.nextTid ∧
  (handleZonesSeek st seeks).2 =
    seeks.map (fun s => Msg.seekUpdated s.zone_id s.seek_position s.queue_time_remaining) ∧
  (∀ id, (zoneLookup (handleZonesSeek st seeks).1.zones id).map clearSeek =
    (zoneLookup st.zones id).map clearSeek) ∧
  (∀ id, (∀ s ∈ seeks, s.zone_id ≠ id) →
    zoneLookup (handleZonesSeek st seeks).1.zones id = zoneLookup st.zones id) ∧
  (∀ id z, zoneLookup st.zones id = some z → z.now_playing = none →
    zoneLookup (handleZonesSeek st seeks).1.zones id = some z)

/-! ## Concrete sample inputs for witnesses and counterexamples -/

/-- A zone `z1` in Playing state. -/
def z1p : Zone := ⟨"z1", "Zone One", .playing, none, []⟩

/-- The same zone `z1` in Stopped state. -/
def z1s : Zone := ⟨"z1", "Zone One", .stopped, none, []⟩

/-- The same zone `z1` in Loading state. -/
def z1l : Zone := ⟨"z1", "Zone One", .loading, none, []⟩

/-- A second zone `z2` in Playing state. -/
def z2p : Zone := ⟨"z2", "Zone Two", .playing, none, []⟩

/-- A dCS Vivaldi zone in Playing state. -/
def zd : Zone := ⟨"zd", "dCS Vivaldi Upsampler", .playing, none, []⟩

/-- A now-playing descriptor referencing image key `"k"`. -/
def npk : NowPlaying := ⟨⟨"t", "", ""⟩, none, none, some "k"⟩

/-- Zone `a`, playing, referencing image key `"k"`. -/
def za : Zone := ⟨"a", "A", .playing, some npk, []⟩

/-- Zone `b`, playing, also referencing image key `"k"`. -/
def zb : Zone := ⟨"b", "B", .playing, some npk, []⟩

/-- A state with one zone `z1` just reported Stopped: its `pending_stops`
entry maps `"z1"` to live task 0 (obtained by running the model). -/
def stPend : ClientState := (run none initState [.zonesChanged [z1s] none]).1

/-- A connected state whose image service is up. -/
def stReg : ClientState := { initState with imageServiceUp := true }

/-- A state with the transport service up and an active queue subscription
for zone `"qa"`. -/
def stq : ClientState :=
  { initState with transportServiceUp := true, activeQueueZone := some "qa" }

/-- C1 counterexample trace: `z1` and `z2` playing; `z1` stops; `z1` plays
again, all before any settle timer fires. -/
def c1Trace : List Event :=
  [.zonesChanged [z1p, z2p] none, .zonesChanged [z1s] none, .zonesChanged [z1p] none]

/-- C3 counterexample trace: `z1` stops (a settle task is scheduled), `z1` is
removed, then the settle timer elapses. -/
def c3Trace : List Event :=
  [.zonesChanged [z1s] none, .zonesRemoved ["z1"], .fire 0]

/-- C5 counterexample trace: two successive batches with a dCS zone playing. -/
def c5Trace : List Event :=
  [.zonesChanged [zd] none, .zonesChanged [zd] none]

/-- C6 counterexample trace: register, then one batch in which two zones
reference the same uncached image key. -/
def c6Trace : List Event :=
  [.registered "Core", .zonesChanged [za, zb] none]

/-! # Theorems -/

/-! ## Basic lemmas about the association-list helpers -/

theorem mem_taskErase {ts : List PendingTask} {tid : Nat} {t : PendingTask} :
    t ∈ taskErase ts tid ↔ t ∈ ts ∧ t.tid ≠ tid := by
  induction ts with
  | nil => simp [taskErase]
  | cons a ts ih =>
    by_cases h : a.tid = tid
    · rw [taskErase, if_pos h, ih]
      constructor
      · exact fun hh => ⟨List.mem_cons_of_mem _ hh.1, hh.2⟩
      · rintro ⟨hm, hne⟩
        rcases List.mem_cons.mp hm with rfl | hm
        · exact absurd h hne
        · exact ⟨hm, hne⟩
    · rw [taskErase, if_neg h]
      constructor
      · intro hh
        rcases List.mem_cons.mp hh with rfl | hh
        · exact ⟨List.mem_cons_self _ _, h⟩
        · exact ⟨List.mem_cons_of_mem _ (ih.mp hh).1, (ih.mp hh).2⟩
      · rintro ⟨hm, hne⟩
        rcases List.mem_cons.mp hm with rfl | hm
        · exact List.mem_cons_self _ _
        · exact List.mem_cons_of_mem _ (ih.mpr ⟨hm, hne⟩)

theorem mem_pendErase {ps : List (String × Nat)} {id : String} {p : String × Nat} :
    p ∈ pendErase ps id ↔ p ∈ ps ∧ p.1 ≠ id := by
  induction ps with
  | nil => simp [pendErase]
  | cons a ps ih =>
    rcases a with ⟨k, v⟩
    by_cases h : k = id
    · rw [pendErase, if_pos h, ih]
      constructor
      · exact fun hh => ⟨List.mem_cons_of_mem _ hh.1, hh.2⟩
      · rintro ⟨hm, hne⟩
        rcases List.mem_cons.mp hm with rfl | hm
        · exact absurd h hne
        · exact ⟨hm, hne⟩
    · rw [pendErase, if_neg h]
      constructor
      · intro hh
        rcases List.mem_cons.mp hh with rfl | hh
        · exact ⟨List.mem_cons_self _ _, h⟩
        · exact ⟨List.mem_cons_of_mem _ (ih.mp hh).1, (ih.mp hh).2⟩
      · rintro ⟨hm, hne⟩
        rcases List.mem_cons.mp hm with rfl | hm
        · exact List.mem_cons_self _ _
        · exact List.mem_cons_of_mem _ (ih.mpr ⟨hm, hne⟩)

theorem pendLookup_erase_self (ps : List (String × Nat)) (id : String) :
    pendLookup (pendErase ps id) id = none := by
  induction ps with
  | nil => rfl
  | cons a ps ih =>
    rcases a with ⟨k, v⟩
    by_cases h : k = id
    · rw [pendErase, if_pos h]; exact ih
    · rw [pendErase, if_neg h, pendLookup, if_neg h]; exact ih

theorem pendLookup_erase_ne {ps : List (String × Nat)} {id id' : String} (h : id' ≠ id) :
    pendLookup (pendErase ps id) id' = pendLookup ps id' := by
  induction ps with
  | nil => rfl
  | cons a ps ih =>
    rcases a with ⟨k, v⟩
    by_cases hk : k = id
    · rw [pendErase, if_pos hk, pendLookup, if_neg (by rw [hk]; exact fun hh => h hh.symm)]
      exact ih
    · rw [pendErase, if_neg hk, pendLookup, pendLookup]
      by_cases hk' : k = id'
      · rw [if_pos hk', if_pos hk']
      · rw [if_neg hk', if_neg hk']; exact ih

theorem pendLookup_append_some {ps qs : List (String × Nat)} {id : String} {v : Nat}
    (h : pendLookup ps id = some v) : pendLookup (ps ++ qs) id = some v := by
  induction ps with
  | nil => simp [pendLookup] at h
  | cons a ps ih =>
    rcases a with ⟨k, w⟩
    rw [pendLookup] at h
    by_cases hk : k = id
    · rw [if_pos hk] at h
      rw [List.cons_append, pendLookup, if_pos hk]; exact h
    · rw [if_neg hk] at h
      rw [List.cons_append, pendLookup, if_neg hk]; exact ih h

theorem pendLookup_append_none {ps qs : List (String × Nat)} {id : String}
    (h : pendLookup ps id = none) : pendLookup (ps ++ qs) id = pendLookup qs id := by
  induction ps with
  | nil => rfl
  | cons a ps ih =>
    rcases a with ⟨k, w⟩
    rw [pendLookup] at h
    by_cases hk : k = id
    · rw [if_pos hk] at h; exact absurd h (by simp)
    · rw [if_neg hk] at h
      rw [List.cons_append, pendLookup, if_neg hk]; exact ih h

theorem pendLookup_mem {ps : List (String × Nat)} {id : String} {v : Nat}
    (h : pendLookup ps id = some v) : (id, v) ∈ ps := by
  induction ps with
  | nil => simp [pendLookup] at h
  | cons a ps ih =>
    rcases a with ⟨k, w⟩
    rw [pendLookup] at h
    by_cases hk : k = id
    · rw [if_pos hk] at h
      subst hk
      rcases Option.some.inj h with rfl
      exact List.mem_cons_self _ _
    · rw [if_neg hk] at h
      exact List.mem_cons_of_mem _ (ih h)

theorem pendLookup_none_iff {ps : List (String × Nat)} {id : String} :
    pendLookup ps id = none ↔ ∀ v, (id, v) ∉ ps := by
  induction ps with
  | nil => simp [pendLookup]
  | cons a ps ih =>
    rcases a with ⟨k, w⟩
    rw [pendLookup]
    by_cases hk : k = id
    · subst hk
      simp only [if_pos rfl]
      constructor
      · intro h; exact absurd h (by simp)
      · intro h; exact absurd (List.mem_cons_self _ _) (h w)
    · rw [if_neg hk, ih]
      constructor
      · intro h v hv
        rcases List.mem_cons.mp hv with he | hv
        · exact hk (congrArg Prod.fst he).symm
        · exact h v hv
      · intro h v hv
        exact h v (List.mem_cons_of_mem _ hv)

theorem mem_pendLookup {ps : List (String × Nat)} {id : String} {v : Nat}
    (hnd : (ps.map Prod.fst).Nodup) (hm : (id, v) ∈ ps) : pendLookup ps id = some v := by
  induction ps with
  | nil => simp at hm
  | cons a ps ih =>
    rcases a with ⟨k, w⟩
    rw [List.map_cons, List.nodup_cons] at hnd
    rcases List.mem_cons.mp hm with he | hm
    · rcases Prod.mk.inj he.symm with ⟨h1, h2⟩
      rw [pendLookup, if_pos h1, h2]
    · rw [pendLookup]
      by_cases hk : k = id
      · subst hk
        exact absurd (List.mem_map_of_mem Prod.fst hm) hnd.1
      · rw [if_neg hk]
        exact ih hnd.2 hm

theorem pendKeyInj {ps : List (String × Nat)} {id : String} {v1 v2 : Nat}
    (hnd : (ps.map Prod.fst).Nodup) (h1 : (id, v1) ∈ ps) (h2 : (id, v2) ∈ ps) : v1 = v2 := by
  have e1 := mem_pendLookup hnd h1
  have e2 := mem_pendLookup hnd h2
  exact Option.some.inj (e1.symm.trans e2)

theorem taskTidInj {ts : List PendingTask} {t1 t2 : PendingTask}
    (hnd : (ts.map PendingTask.tid).Nodup) (h1 : t1 ∈ ts) (h2 : t2 ∈ ts)
    (he : t1.tid = t2.tid) : t1 = t2 := by
  induction ts with
  | nil => simp at h1
  | cons a ts ih =>
    rw [List.map_cons, List.nodup_cons] at hnd
    rcases List.mem_cons.mp h1 with h1e | h1m
    · rcases List.mem_cons.mp h2 with h2e | h2m
      · rw [h1e, h2e]
      · exfalso
        have hm2 : t2.tid ∈ ts.map PendingTask.tid := List.mem_map_of_mem _ h2m
        rw [← he, h1e] at hm2
        exact hnd.1 hm2
    · rcases List.mem_cons.mp h2 with h2e | h2m
      · exfalso
        have hm2 : t1.tid ∈ ts.map PendingTask.tid := List.mem_map_of_mem _ h1m
        rw [he, h2e] at hm2
        exact hnd.1 hm2
      · exact ih hnd.2 h1m h2m

theorem taskFind_some {ts : List PendingTask} {tid : Nat} {t : PendingTask}
    (h : taskFind ts tid = some t) : t ∈ ts ∧ t.tid = tid := by
  induction ts with
  | nil => simp [taskFind] at h
  | cons a ts ih =>
    rw [taskFind] at h
    by_cases ha : a.tid = tid
    · rw [if_pos ha] at h
      rcases Option.some.inj h with rfl
      exact ⟨List.mem_cons_self _ _, ha⟩
    · rw [if_neg ha] at h
      exact ⟨List.mem_cons_of_mem _ (ih h).1, (ih h).2⟩

theorem taskFind_none {ts : List PendingTask} {tid : Nat} :
    taskFind ts tid = none ↔ ∀ t ∈ ts, t.tid ≠ tid := by
  induction ts with
  | nil => simp [taskFind]
  | cons a ts ih =>
    rw [taskFind]
    by_cases ha : a.tid = tid
    · simp only [if_pos ha]
      constructor
      · intro h; exact absurd h (by simp)
      · intro h; exact absurd ha (h a (List.mem_cons_self _ _))
    · rw [if_neg ha, ih]
      constructor
      · intro h t ht
        rcases List.mem_cons.mp ht with rfl | ht
        · exact ha
        · exact h t ht
      · intro h t ht
        exact h t (List.mem_cons_of_mem _ ht)

theorem pendErase_keys_nodup {ps : List (String × Nat)} {id : String}
    (hnd : (ps.map Prod.fst).Nodup) : ((pendErase ps id).map Prod.fst).Nodup := by
  induction ps with
  | nil => simp [pendErase]
  | cons a ps ih =>
    rcases a with ⟨k, v⟩
    rw [List.map_cons, List.nodup_cons] at hnd
    by_cases hk : k = id
    · rw [pendErase, if_pos hk]; exact ih hnd.2
    · rw [pendErase, if_neg hk, List.map_cons, List.nodup_cons]
      refine ⟨fun hmem => ?_, ih hnd.2⟩
      rcases List.mem_map.mp hmem with ⟨p, hp, he⟩
      have hm2 : p.1 ∈ ps.map Prod.fst := List.mem_map_of_mem _ (mem_pendErase.mp hp).1
      rw [he] at hm2
      exact hnd.1 hm2

theorem taskErase_tids_nodup {ts : List PendingTask} {tid : Nat}
    (hnd : (ts.map PendingTask.tid).Nodup) :
    ((taskErase ts tid).map PendingTask.tid).Nodup := by
  induction ts with
  | nil => simp [taskErase]
  | cons a ts ih =>
    rw [List.map_cons, List.nodup_cons] at hnd
    by_cases ha : a.tid = tid
    · rw [taskErase, if_pos ha]; exact ih hnd.2
    · rw [taskErase, if_neg ha, List.map_cons, List.nodup_cons]
      refine ⟨fun hmem => ?_, ih hnd.2⟩
      rcases List.mem_map.mp hmem with ⟨t, ht, he⟩
      have hm2 : t.tid ∈ ts.map PendingTask.tid := List.mem_map_of_mem _ (mem_taskErase.mp ht).1
      rw [he] at hm2
      exact hnd.1 hm2

/-! ## Zone-store lemmas -/

theorem mem_keys_zoneInsert {m : ZoneMap} {id a : String} {z : Zone} :
    a ∈ (zoneInsert m id z).map Prod.fst ↔ a ∈ m.map Prod.fst ∨ a = id := by
  induction m with
  | nil => simp [zoneInsert]
  | cons p m ih =>
    rcases p with ⟨k, w⟩
    by_cases hk : k = id
    · rw [zoneInsert, if_pos hk]
      subst hk
      simp only [List.map_cons, List.mem_cons]
      constructor
      · exact fun h => h.elim (fun h => Or.inr h) (fun h => Or.inl (Or.inr h))
      · rintro (h | h)
        · exact h.elim (fun h => Or.inl h) (fun h => Or.inr h)
        · exact Or.inl h
    · rw [zoneInsert, if_neg hk]
      simp only [List.map_cons, List.mem_cons, ih]
      tauto

theorem zoneInsert_keys_nodup {m : ZoneMap} {id : String} {z : Zone}
    (hnd : (m.map Prod.fst).Nodup) : ((zoneInsert m id z).map Prod.fst).Nodup := by
  induction m with
  | nil => simp [zoneInsert]
  | cons p m ih =>
    rcases p with ⟨k, w⟩
    rw [List.map_cons, List.nodup_cons] at hnd
    by_cases hk : k = id
    · rw [zoneInsert, if_pos hk, List.map_cons, List.nodup_cons]
      exact hnd
    · rw [zoneInsert, if_neg hk, List.map_cons, List.nodup_cons]
      refine ⟨fun hmem => ?_, ih hnd.2⟩
      rcases mem_keys_zoneInsert.mp hmem with h | h
      · exact hnd.1 h
      · exact hk h

theorem zoneInsertFold_nodup (batch : List Zone) : ∀ m : ZoneMap,
    (m.map Prod.fst).Nodup →
    ((batch.foldl (fun mm z => zoneInsert mm z.zone_id z) m).map Prod.fst).Nodup := by
  induction batch with
  | nil => exact fun m h => h
  | cons z batch ih =>
    intro m h
    rw [List.foldl_cons]
    exact ih (zoneInsert m z.zone_id z) (zoneInsert_keys_nodup h)

theorem snapAfter_keys_nodup {st : ClientState} {batch : List Zone}
    (hnd : (st.zones.map Prod.fst).Nodup) : ((snapAfter st batch).map Prod.fst).Nodup :=
  zoneInsertFold_nodup batch st.zones hnd

theorem mem_zoneErase {m : ZoneMap} {id : String} {p : String × Zone} :
    p ∈ zoneErase m id ↔ p ∈ m ∧ p.1 ≠ id := by
  induction m with
  | nil => simp [zoneErase]
  | cons a m ih =>
    rcases a with ⟨k, w⟩
    by_cases hk : k = id
    · rw [zoneErase, if_pos hk, ih]
      constructor
      · exact fun hh => ⟨List.mem_cons_of_mem _ hh.1, hh.2⟩
      · rintro ⟨hm, hne⟩
        rcases List.mem_cons.mp hm with rfl | hm
        · exact absurd hk hne
        · exact ⟨hm, hne⟩
    · rw [zoneErase, if_neg hk]
      constructor
      · intro hh
        rcases List.mem_cons.mp hh with rfl | hh
        · exact ⟨List.mem_cons_self _ _, hk⟩
        · exact ⟨List.mem_cons_of_mem _ (ih.mp hh).1, (ih.mp hh).2⟩
      · rintro ⟨hm, hne⟩
        rcases List.mem_cons.mp hm with rfl | hm
        · exact List.mem_cons_self _ _
        · exact List.mem_cons_of_mem _ (ih.mpr ⟨hm, hne⟩)

theorem zoneErase_keys_nodup {m : ZoneMap} {id : String}
    (hnd : (m.map Prod.fst).Nodup) : ((zoneErase m id).map Prod.fst).Nodup := by
  induction m with
  | nil => simp [zoneErase]
  | cons a m ih =>
    rcases a with ⟨k, w⟩
    rw [List.map_cons, List.nodup_cons] at hnd
    by_cases hk : k = id
    · rw [zoneErase, if_pos hk]; exact ih hnd.2
    · rw [zoneErase, if_neg hk, List.map_cons, List.nodup_cons]
      refine ⟨fun hmem => ?_, ih hnd.2⟩
      rcases List.mem_map.mp hmem with ⟨p, hp, he⟩
      have hm2 : p.1 ∈ m.map Prod.fst := List.mem_map_of_mem _ (mem_zoneErase.mp hp).1
      rw [he] at hm2
      exact hnd.1 hm2

theorem mem_zoneLookup {m : ZoneMap} {id : String} {z : Zone}
    (hnd : (m.map Prod.fst).Nodup) (hm : (id, z) ∈ m) : zoneLookup m id = some z := by
  induction m with
  | nil => simp at hm
  | cons a m ih =>
    rcases a with ⟨k, w⟩
    rw [List.map_cons, List.nodup_cons] at hnd
    rcases List.mem_cons.mp hm with he | hm
    · rcases Prod.mk.inj he.symm with ⟨h1, h2⟩
      rw [zoneLookup, if_pos h1, h2]
    · rw [zoneLookup]
      by_cases hk : k = id
      · subst hk
        exact absurd (List.mem_map_of_mem Prod.fst hm) hnd.1
      · rw [if_neg hk]
        exact ih hnd.2 hm

theorem zoneKeyInj {m : ZoneMap} {id : String} {z1 z2 : Zone}
    (hnd : (m.map Prod.fst).Nodup) (h1 : (id, z1) ∈ m) (h2 : (id, z2) ∈ m) : z1 = z2 :=
  Option.some.inj ((mem_zoneLookup hnd h1).symm.trans (mem_zoneLookup hnd h2))

theorem mem_stoppedIds {m : ZoneMap} {id : String} :
    id ∈ stoppedIds m ↔ ∃ z, (id, z) ∈ m ∧ z.state = ZState.stopped := by
  rw [stoppedIds]
  constructor
  · intro h
    rcases List.mem_map.mp h with ⟨p, hp, he⟩
    rcases List.mem_filter.mp hp with ⟨hm, hs⟩
    exact ⟨p.2, by rw [← he]; exact hm, by simpa using hs⟩
  · rintro ⟨z, hm, hs⟩
    exact List.mem_map_of_mem _ (List.mem_filter.mpr ⟨hm, by simpa using hs⟩)

theorem mem_nonStopIds {m : ZoneMap} {id : String} :
    id ∈ nonStopIds m ↔ ∃ z, (id, z) ∈ m ∧ z.state ≠ ZState.stopped := by
  rw [nonStopIds]
  constructor
  · intro h
    rcases List.mem_map.mp h with ⟨p, hp, he⟩
    rcases List.mem_filter.mp hp with ⟨hm, hs⟩
    exact ⟨p.2, by rw [← he]; exact hm, by simpa using hs⟩
  · rintro ⟨z, hm, hs⟩
    exact List.mem_map_of_mem _ (List.mem_filter.mpr ⟨hm, by simpa using hs⟩)

theorem stopped_not_nonStop {m : ZoneMap} {id : String}
    (hnd : (m.map Prod.fst).Nodup) (h : id ∈ stoppedIds m) : id ∉ nonStopIds m := by
  intro hns
  rcases mem_stoppedIds.mp h with ⟨z1, hm1, hs1⟩
  rcases mem_nonStopIds.mp hns with ⟨z2, hm2, hs2⟩
  exact hs2 (zoneKeyInj hnd hm2 hm1 ▸ hs1)

/-! ## Seek-patch lemmas -/

theorem patchZ_of_none {pos : Option Int} {z : Zone} (h : z.now_playing = none) :
    patchZ pos z = z := by
  rw [patchZ, h]

theorem clearSeek_patchZ (pos : Option Int) (z : Zone) :
    clearSeek (patchZ pos z) = clearSeek z := by
  cases h : z.now_playing with
  | none => rw [patchZ_of_none h]
  | some np => simp [patchZ, clearSeek, h]

theorem zoneLookup_patchSeek_self (m : ZoneMap) (id : String) (pos : Option Int) :
    zoneLookup (patchSeek m id pos) id = (zoneLookup m id).map (patchZ pos) := by
  induction m with
  | nil => rfl
  | cons a m ih =>
    rcases a with ⟨k, w⟩
    by_cases hk : k = id
    · rw [patchSeek, List.map_cons]
      simp only [if_pos hk]
      rw [zoneLookup, if_pos hk, zoneLookup, if_pos hk, Option.map_some']
    · rw [patchSeek, List.map_cons]
      simp only [if_neg hk]
      rw [zoneLookup, if_neg hk, zoneLookup, if_neg hk, ← patchSeek]
      exact ih

theorem zoneLookup_patchSeek_ne {m : ZoneMap} {id id' : String} (pos : Option Int)
    (h : id' ≠ id) : zoneLookup (patchSeek m id pos) id' = zoneLookup m id' := by
  induction m with
  | nil => rfl
  | cons a m ih =>
    rcases a with ⟨k, w⟩
    by_cases hk : k = id
    · rw [patchSeek, List.map_cons]
      simp only [if_pos hk]
      rw [zoneLookup, if_neg (hk ▸ fun hh => h hh.symm), zoneLookup,
        if_neg (fun hh => h (hk ▸ hh.symm)), ← patchSeek]
      exact ih
    · rw [patchSeek, List.map_cons]
      simp only [if_neg hk]
      rw [zoneLookup, zoneLookup, ← patchSeek]
      by_cases hk' : k = id'
      · rw [if_pos hk', if_pos hk']
      · rw [if_neg hk', if_neg hk']
        exact ih

/-- Length of the guarded remove loop: each pass erases one element while the
index is in bounds, so `n` passes erase `min n (length - idx)` elements. -/
theorem removeLoop_length (idx n : Nat) : ∀ q : List QueueItem,
    (removeLoop idx n q).length = q.length - min n (q.length - idx) := by
  induction n with
  | zero => intro q; simp [removeLoop]
  | succ n ih =>
    intro q
    simp only [removeLoop]
    by_cases h : idx < q.length
    · rw [if_pos h, ih, List.length_eraseIdx, if_pos h]
      omega
    · rw [if_neg h, ih]
      omega

/-- C10: a queue-delta `Remove` with any index and count is total (each
removal is guarded by the bound check) and removes exactly
`min(count, length − index)` items — which over `Nat` subtraction is
`min(count, max(0, length − index))` — with `count` defaulting to 1 when
absent. -/
theorem c10_remove_guarded (q : List QueueItem) (idx : Nat) (count : Option Nat)
    (items : Option (List QueueItem)) :
    (applyQueueOp q ⟨.remove, idx, count, items⟩).length
      = q.length - min (count.getD 1) (q.length - idx) := by
  simp [applyQueueOp, removeLoop_length]

/-- C9: the connection-lost event marks the client disconnected, clears the
zone store, clears the three cached service handles, and broadcasts
`ConnectionChanged{false}` — a pure state transition of the total `step`
function, with no error outcome to propagate. -/
theorem c9_lost_transition (dcsFmt : Option String) (st : ClientState) :
    step dcsFmt st .lost =
      ({ st with
          connected := false
          coreName := none
          zones := []
          imageServiceUp := false
          transportServiceUp := false
          browseServiceUp := false },
       [Msg.connectionChanged false], []) := rfl

/-- C1 counterexample: on `c1Trace`, zone `z1` goes Playing → Stopped →
Playing with no settle timer firing in between (so well within the
stop-settle delay), yet a `ZonesChanged` broadcast reporting `z1` Stopped is
emitted: the batch that reported `z1` Stopped still had `z2` in a non-stop
state, so the handler broadcast the mixed snapshot immediately. -/
theorem c1_counterexample :
    ((run none initState c1Trace).2.1.any (fun m =>
      match m with
      | .zonesChanged _ np _ _ => np.any (fun w => w.zone_id == "z1" && w.state == "Stopped")
      | _ => false)) = true := by decide

/-- C3 counterexample: on `c3Trace`, removing `z1` while its `StopSettle`
task is pending does not cancel the task; after the removal broadcast the
stale settle fires and a second `ZonesChanged` (the delayed stop broadcast)
is emitted, contradicting both "a removal invalidates any pending debounce
task" and "the removal broadcast is the only message produced". -/
theorem c3_counterexample :
    (run none initState c3Trace).2.1 =
      [Msg.zonesChanged .removal [] [] none,
       Msg.zonesChanged (.delayedStop "z1") [] [] none] := by decide

/-- C5 counterexample: after two batches with a dCS zone playing (`c5Trace`),
two `FormatSettle` delayed-broadcast tasks are simultaneously outstanding and
neither is held in the per-zone `pending_stops` table — the dCS delay is a
fire-and-forget spawned task, so "at most one outstanding settle task per
zone id, held in the per-zone debounce table" is false for `FormatSettle`. -/
theorem c5_counterexample :
    (run none initState c5Trace).1.tasks =
      [⟨0, .formatSettle, DCS_UPDATE_DELAY_MS⟩, ⟨1, .formatSettle, DCS_UPDATE_DELAY_MS⟩] ∧
    (run none initState c5Trace).1.pendingStops = [] := by
  exact ⟨by decide, by decide⟩

/-- C6 counterexample: on `c6Trace`, one zones-changed batch in which two
zones reference the same uncached image key `"k"` issues two fetch requests
for that key — the collected request list is not deduplicated. -/
theorem c6_counterexample :
    (run none initState c6Trace).2.2 = ["k", "k"] := by decide

/-! ## C6: image requests -/

theorem collectStep_sound {imgs : List (String × ImageData)} {acc : List String} {z : Zone} :
    ∀ k ∈ collectStep imgs acc z, k ∈ acc ∨ imgLookup imgs k = none := by
  intro k hk
  cases hz : z.now_playing with
  | none =>
    rw [collectStep, hz] at hk
    exact Or.inl hk
  | some np =>
    cases hik : np.image_key with
    | none =>
      simp only [collectStep, hz, hik] at hk
      exact Or.inl hk
    | some kk =>
      simp only [collectStep, hz, hik] at hk
      by_cases hc : (imgLookup imgs kk).isSome
      · rw [if_pos hc] at hk
        exact Or.inl hk
      · rw [if_neg hc] at hk
        rcases List.mem_append.mp hk with h | h
        · exact Or.inl h
        · rcases List.mem_singleton.mp h with rfl
          exact Or.inr (Option.not_isSome_iff_eq_none.mp hc)

theorem collectFold_sound (imgs : List (String × ImageData)) :
    ∀ (batch : List Zone) (acc : List String),
      (∀ k ∈ acc, imgLookup imgs k = none) →
      ∀ k ∈ batch.foldl (collectStep imgs) acc, imgLookup imgs k = none := by
  intro batch
  induction batch with
  | nil => exact fun acc hacc k hk => hacc k hk
  | cons z bt ih =>
    intro acc hacc k hk
    rw [List.foldl_cons] at hk
    refine ih _ (fun k' hk' => ?_) k hk
    rcases collectStep_sound k' hk' with h | h
    · exact hacc k' h
    · exact h

/-- C6 (amended): every image key for which a fetch request is issued by a
zones-changed batch is absent from the image cache at batch-processing time;
the claimed at-most-once-per-distinct-key property fails
(`c6_counterexample`), since the request list is not deduplicated. -/
theorem c6_uncached_only (dcsFmt : Option String) (st : ClientState) (batch : List Zone)
    (rawJson : Option String) (k : String)
    (hk : k ∈ (handleZonesChanged dcsFmt st batch rawJson).2.2) :
    imgLookup st.images k = none := by
  have hre : (handleZonesChanged dcsFmt st batch rawJson).2.2
      = if st.imageServiceUp then collectImageKeys st.images batch else [] := rfl
  rw [hre] at hk
  by_cases hs : st.imageServiceUp
  · rw [if_pos hs] at hk
    exact collectFold_sound st.images batch [] (by intro k' h; simp at h) k hk
  · rw [if_neg hs] at hk
    simp at hk

/-- C6 witness: the amended theorem applied at the counterexample batch. -/
theorem c6_uncached_only_witness :
    "k" ∈ (handleZonesChanged none stReg [za, zb] none).2.2 ∧
    imgLookup stReg.images "k" = none :=
  ⟨by decide, c6_uncached_only none stReg [za, zb] none "k" (by decide)⟩

/-! ## C4: all-Loading snapshots -/

theorem cancelOne_spec (c : Ctx) (id : String) :
    (cancelOne c id).msgs = c.msgs ∧ (cancelOne c id).nextTid = c.nextTid ∧
    (∀ t ∈ (cancelOne c id).tasks, t ∈ c.tasks) := by
  rw [cancelOne]
  cases h : pendLookup c.pending id with
  | none => exact ⟨rfl, rfl, fun t ht => ht⟩
  | some tid => exact ⟨rfl, rfl, fun t ht => (mem_taskErase.mp ht).1⟩

theorem cancelPhase_spec (ids : List String) : ∀ c : Ctx,
    (cancelPhase ids c).msgs = c.msgs ∧ (cancelPhase ids c).nextTid = c.nextTid ∧
    (∀ t ∈ (cancelPhase ids c).tasks, t ∈ c.tasks) := by
  induction ids with
  | nil => exact fun c => ⟨rfl, rfl, fun t ht => ht⟩
  | cons i ids ih =>
    intro c
    rw [cancelPhase, List.foldl_cons]
    rcases ih (cancelOne c i) with ⟨h1, h2, h3⟩
    rcases cancelOne_spec c i with ⟨g1, g2, g3⟩
    rw [cancelPhase] at h1 h2
    exact ⟨h1.trans g1, h2.trans g2, fun t ht => g3 t (h3 t ht)⟩

/-- C4: a zones-changed batch whose resulting snapshot consists solely of
zones in `Loading` state emits no message and schedules no new delayed task
(there is also nothing to fire later on this batch's account). -/
theorem c4_all_loading (dcsFmt : Option String) (st : ClientState) (batch : List Zone)
    (rawJson : Option String)
    (h : ∀ p ∈ snapAfter st batch, p.2.state = ZState.loading) :
    C4Concl dcsFmt st batch rawJson := by
  have hstop : stoppedIds (snapAfter st batch) = [] := by
    rw [stoppedIds, List.filter_eq_nil_iff.mpr ?_]
    · rfl
    · intro p hp
      simp [h p hp]
  have hnl : hasNonLoading (snapAfter st batch) = false := by
    rw [hasNonLoading, List.any_eq_false]
    intro p hp
    simp [h p hp]
  have hctx : hzcCtx dcsFmt st batch rawJson =
      cancelPhase (nonStopIds (snapAfter st batch))
        ⟨st.pendingStops, st.tasks, st.nextTid, []⟩ := by
    rw [hzcCtx, hstop, broadcastPhase, hnl]
    simp [stopPhase]
  rcases cancelPhase_spec (nonStopIds (snapAfter st batch))
    ⟨st.pendingStops, st.tasks, st.nextTid, []⟩ with ⟨h1, _, h3⟩
  constructor
  · show (hzcCtx dcsFmt st batch rawJson).msgs = []
    rw [hctx, h1]
  · show ∀ t ∈ (hzcCtx dcsFmt st batch rawJson).tasks, t ∈ st.tasks
    rw [hctx]
    exact h3

/-- C4 witness: the theorem applied to a batch producing a single-zone
all-Loading snapshot from the initial state. -/
theorem c4_all_loading_witness :
    (∀ p ∈ snapAfter initState [z1l], p.2.state = ZState.loading) ∧
    C4Concl none initState [z1l] none :=
  ⟨by decide, c4_all_loading none initState [z1l] none (by decide)⟩

/-! ## C8: the zones-seek path -/

theorem seekFold_fst (seeks : List ZoneSeek) : ∀ (m : ZoneMap) (ms : List Msg),
    (seeks.foldl seekStep (m, ms)).1 =
      seeks.foldl (fun mm s => patchSeek mm s.zone_id s.seek_position) m := by
  induction seeks with
  | nil => intro m ms; rfl
  | cons s seeks ih =>
    intro m ms
    rw [List.foldl_cons, List.foldl_cons]
    exact ih _ _

theorem seekFold_snd (seeks : List ZoneSeek) : ∀ (m : ZoneMap) (ms : List Msg),
    (seeks.foldl seekStep (m, ms)).2 =
      ms ++ seeks.map (fun s => Msg.seekUpdated s.zone_id s.seek_position s.queue_time_remaining) := by
  induction seeks with
  | nil => intro m ms; simp
  | cons s seeks ih =>
    intro m ms
    rw [List.foldl_cons, List.map_cons, ih]
    simp [seekStep]

theorem seekZones_clear (seeks : List ZoneSeek) : ∀ (m : ZoneMap) (id : String),
    (zoneLookup (seeks.foldl (fun mm s => patchSeek mm s.zone_id s.seek_position) m) id).map
        clearSeek = (zoneLookup m id).map clearSeek := by
  induction seeks with
  | nil => intro m id; rfl
  | cons s seeks ih =>
    intro m id
    rw [List.foldl_cons, ih]
    by_cases hid : id = s.zone_id
    · rw [hid, zoneLookup_patchSeek_self]
      cases hzl : zoneLookup m s.zone_id with
      | none => rfl
      | some z => simp [clearSeek_patchZ]
    · rw [zoneLookup_patchSeek_ne _ hid]

theorem seekZones_untouched (seeks : List ZoneSeek) : ∀ (m : ZoneMap) (id : String),
    (∀ s ∈ seeks, s.zone_id ≠ id) →
    zoneLookup (seeks.foldl (fun mm s => patchSeek mm s.zone_id s.seek_position) m) id =
      zoneLookup m id := by
  induction seeks with
  | nil => intro m id _; rfl
  | cons s seeks ih =>
    intro m id hs
    rw [List.foldl_cons, ih _ _ (fun s' hs' => hs s' (List.mem_cons_of_mem _ hs')),
      zoneLookup_patchSeek_ne _ (fun hh => hs s (List.mem_cons_self _ _) hh.symm)]

theorem seekZones_np_none (seeks : List ZoneSeek) : ∀ (m : ZoneMap) (id : String) (z : Zone),
    zoneLookup m id = some z → z.now_playing = none →
    zoneLookup (seeks.foldl (fun mm s => patchSeek mm s.zone_id s.seek_position) m) id =
      some z := by
  induction seeks with
  | nil => intro m id z hz _; exact hz
  | cons s seeks ih =>
    intro m id z hz hnp
    rw [List.foldl_cons]
    by_cases hid : id = s.zone_id
    · subst hid
      refine ih _ _ _ ?_ hnp
      rw [zoneLookup_patchSeek_self, hz, Option.map_some', patchZ_of_none hnp]
    · refine ih _ _ _ ?_ hnp
      rw [zoneLookup_patchSeek_ne _ hid, hz]

/-- C8: the zones-seek path patches only the seek position of named zones
with a now-playing descriptor, leaves everything else (including all debounce
bookkeeping) untouched, and broadcasts one `SeekUpdated` per batch entry. -/
theorem c8_seek_path (st : ClientState) (seeks : List ZoneSeek) : C8Concl st seeks := by
  have hz : (handleZonesSeek st seeks).1.zones =
      seeks.foldl (fun mm s => patchSeek mm s.zone_id s.seek_position) st.zones :=
    seekFold_fst seeks st.zones []
  refine ⟨rfl, rfl, rfl, ?_, ?_, ?_, ?_⟩
  · show (seeks.foldl seekStep (st.zones, [])).2 = _
    rw [seekFold_snd]
    simp
  · intro id
    rw [hz]
    exact seekZones_clear seeks st.zones id
  · intro id hid
    rw [hz]
    exact seekZones_untouched seeks st.zones id hid
  · intro id z hzz hnp
    rw [hz]
    exact seekZones_np_none seeks st.zones id z hzz hnp

/-- C8 witness: the theorem applied to a state holding `z1` (which has no
now-playing descriptor) and a two-entry seek batch naming `z1` and an unknown
zone. -/
theorem c8_seek_path_witness :
    C8Concl stPend [⟨"z1", some 7, 100⟩, ⟨"zx", some 3, 50⟩] :=
  c8_seek_path stPend [⟨"z1", some 7, 100⟩, ⟨"zx", some 3, 50⟩]

/-! ## C7: the queue subscription method -/

/-- C7: `subscribe_to_queue` issues exactly one subscribe for two successive
calls with the same (previously unsubscribed) id, the second call being a
no-op; switching to a new id while another subscription is active issues
exactly one unsubscribe then one subscribe and updates the single slot; and
the method never mutates the queue cache, so a rendezvous timeout simply
leaves the cache empty for the id (there is no error outcome). -/
theorem c7_queue_subscription (st : ClientState) (id other : String)
    (htr : st.transportServiceUp = true) : C7Concl st id other := by
  by_cases hact : st.activeQueueZone = some id
  · have h0 : subscribeToQueue st id = (st, []) := by
      rw [subscribeToQueue, htr]
      rw [if_pos rfl, if_pos hact]
    refine ⟨⟨?_, ?_⟩, ?_, ?_⟩
    · rw [h0]
      exact h0
    · intro hne
      exact absurd hact hne
    · intro h2 hne
      exact absurd (Option.some.inj (h2.symm.trans hact)) hne
    · rw [h0]
  · have h1 : subscribeToQueue st id =
        ({ st with activeQueueZone := some id },
         (if st.activeQueueZone.isSome then [UpCall.unsubscribeQueue] else []) ++
           [UpCall.subscribeQueue id 50]) := by
      rw [subscribeToQueue, htr]
      rw [if_pos rfl, if_neg hact]
    have hs1 : (subscribeToQueue st id).1 = { st with activeQueueZone := some id } := by
      rw [h1]
    have hcalls : (subscribeToQueue st id).2 =
        (if st.activeQueueZone.isSome then [UpCall.unsubscribeQueue] else []) ++
          [UpCall.subscribeQueue id 50] := by
      rw [h1]
    have h2eq : subscribeToQueue ({ st with activeQueueZone := some id }) id =
        (({ st with activeQueueZone := some id } : ClientState), []) := by
      have ht2 : ({ st with activeQueueZone := some id } : ClientState).transportServiceUp
          = true := htr
      rw [subscribeToQueue, ht2]
      rw [if_pos rfl, if_pos rfl]
    refine ⟨⟨?_, ?_⟩, ?_, ?_⟩
    · rw [hs1]
      exact h2eq
    · intro _
      rw [hcalls, hs1, h2eq]
      cases hs : st.activeQueueZone.isSome
      · rfl
      · rfl
    · intro h2 hne
      have hs : st.activeQueueZone.isSome = true := by rw [h2]; rfl
      constructor
      · rw [hcalls, hs]
        rfl
      · rw [hs1]
    · rw [hs1]

/-- C7 witness: the theorem applied at a state subscribed to zone `qa`, with
a switch to zone `qb`. -/
theorem c7_queue_subscription_witness :
    stq.transportServiceUp = true ∧ C7Concl stq "qb" "qa" :=
  ⟨rfl, c7_queue_subscription stq "qb" "qa" rfl⟩

/-! ## Debounce-context invariant lemmas -/

theorem pendLookup_none_key {ps : List (String × Nat)} {id : String}
    (h : pendLookup ps id = none) : id ∉ ps.map Prod.fst := by
  intro hmem
  rcases List.mem_map.mp hmem with ⟨p, hp, he⟩
  have hp2 : (id, p.2) ∈ ps := by rw [← he]; exact hp
  exact pendLookup_none_iff.mp h p.2 hp2

theorem pendTidInj {c : Ctx} (hinv : Ctx.Inv c) {a b : String} {t : Nat}
    (ha : (a, t) ∈ c.pending) (hb : (b, t) ∈ c.pending) : a = b := by
  obtain ⟨_, hndT, hpend, _⟩ := hinv
  have h1 := (hpend _ ha).2
  have h2 := (hpend _ hb).2
  have he := taskTidInj hndT h1 h2 rfl
  have hk := congrArg PendingTask.kind he
  simpa using hk

theorem cancelOne_inv {c : Ctx} {id : String} (hinv : Ctx.Inv c) : Ctx.Inv (cancelOne c id) := by
  have hc := hinv
  obtain ⟨hndP, hndT, hpend, htask⟩ := hinv
  rw [cancelOne]
  cases hl : pendLookup c.pending id with
  | none => exact ⟨hndP, hndT, hpend, htask⟩
  | some tid =>
    refine ⟨pendErase_keys_nodup hndP, taskErase_tids_nodup hndT, ?_, ?_⟩
    · intro p hp
      rcases mem_pendErase.mp hp with ⟨hpm, hpne⟩
      have hne2 : p.2 ≠ tid := by
        intro he
        have hidm : (id, tid) ∈ c.pending := pendLookup_mem hl
        have hpm2 : (p.1, tid) ∈ c.pending := by rw [← he]; exact hpm
        exact hpne (pendTidInj hc hpm2 hidm)
      exact ⟨(hpend p hpm).1, mem_taskErase.mpr ⟨(hpend p hpm).2, hne2⟩⟩
    · intro t ht
      rcases mem_taskErase.mp ht with ⟨htm, htne⟩
      refine ⟨(htask t htm).1, ?_⟩
      intro zid hz
      have hzp := (htask t htm).2 zid hz
      refine mem_pendErase.mpr ⟨hzp, ?_⟩
      intro he
      have hlz : pendLookup c.pending id = some t.tid := by
        refine mem_pendLookup hndP ?_
        rw [← he]
        exact hzp
      rw [hl] at hlz
      exact htne (Option.some.inj hlz).symm

theorem cancelOne_kill {c : Ctx} {id : String} {tid : Nat} (hinv : Ctx.Inv c)
    (hl : pendLookup c.pending id = some tid) :
    pendLookup (cancelOne c id).pending id = none ∧ DeadTid (cancelOne c id) tid := by
  rw [cancelOne, hl]
  refine ⟨pendLookup_erase_self _ _, (hinv.2.2.1 _ (pendLookup_mem hl)).1, ?_⟩
  intro t ht
  exact (mem_taskErase.mp ht).2

theorem cancelOne_pend_frame {c : Ctx} {id id' : String} (h : id' ≠ id) :
    pendLookup (cancelOne c id).pending id' = pendLookup c.pending id' := by
  rw [cancelOne]
  cases hl : pendLookup c.pending id with
  | none => rfl
  | some tid => exact pendLookup_erase_ne h

theorem cancelOne_pend_none {c : Ctx} {id id' : String}
    (h : pendLookup c.pending id' = none) :
    pendLookup (cancelOne c id).pending id' = none := by
  by_cases he : id' = id
  · subst he
    rw [cancelOne]
    cases hl : pendLookup c.pending id' with
    | none => exact h
    | some tid => exact pendLookup_erase_self _ _
  · rw [cancelOne_pend_frame he]
    exact h

theorem cancelOne_dead {c : Ctx} {id : String} {tid : Nat} (h : DeadTid c tid) :
    DeadTid (cancelOne c id) tid := by
  rcases cancelOne_spec c id with ⟨_, hnt, hts⟩
  exact ⟨by rw [hnt]; exact h.1, fun t ht => h.2 t (hts t ht)⟩

theorem cancelPhase_cons (i : String) (ids : List String) (c : Ctx) :
    cancelPhase (i :: ids) c = cancelPhase ids (cancelOne c i) := rfl

theorem cancelPhase_inv (ids : List String) : ∀ c : Ctx,
    Ctx.Inv c → Ctx.Inv (cancelPhase ids c) := by
  induction ids with
  | nil => exact fun c h => h
  | cons i ids ih =>
    intro c h
    rw [cancelPhase_cons]
    exact ih (cancelOne c i) (cancelOne_inv h)

theorem cancelPhase_pend_frame {ids : List String} {id : String} (h : id ∉ ids) :
    ∀ c : Ctx, pendLookup (cancelPhase ids c).pending id = pendLookup c.pending id := by
  induction ids with
  | nil => exact fun c => rfl
  | cons i ids ih =>
    intro c
    rw [cancelPhase_cons]
    have hne : id ≠ i := fun he => h (he ▸ List.mem_cons_self i ids)
    have hrest : id ∉ ids := fun hm => h (List.mem_cons_of_mem _ hm)
    rw [ih hrest (cancelOne c i), cancelOne_pend_frame hne]

theorem cancelPhase_pend_none (ids : List String) (id' : String) : ∀ c : Ctx,
    pendLookup c.pending id' = none →
    pendLookup (cancelPhase ids c).pending id' = none := by
  induction ids with
  | nil => exact fun c h => h
  | cons i ids ih =>
    intro c h
    rw [cancelPhase_cons]
    exact ih (cancelOne c i) (cancelOne_pend_none h)

theorem cancelPhase_dead (ids : List String) (tid : Nat) : ∀ c : Ctx,
    DeadTid c tid → DeadTid (cancelPhase ids c) tid := by
  induction ids with
  | nil => exact fun c h => h
  | cons i ids ih =>
    intro c h
    rw [cancelPhase_cons]
    exact ih (cancelOne c i) (cancelOne_dead h)

theorem cancelPhase_kill {ids : List String} {id : String} {tid : Nat} (hid : id ∈ ids) :
    ∀ c : Ctx, Ctx.Inv c → pendLookup c.pending id = some tid →
    pendLookup (cancelPhase ids c).pending id = none ∧ DeadTid (cancelPhase ids c) tid := by
  induction ids with
  | nil => simp at hid
  | cons i ids ih =>
    intro c hinv hl
    rw [cancelPhase_cons]
    by_cases he : id = i
    · subst he
      rcases cancelOne_kill hinv hl with ⟨h1, h2⟩
      exact ⟨cancelPhase_pend_none ids id (cancelOne c id) h1,
             cancelPhase_dead ids tid (cancelOne c id) h2⟩
    · have hid2 : id ∈ ids := by
        rcases List.mem_cons.mp hid with h | h
        · exact absurd h he
        · exact h
      refine ih hid2 (cancelOne c i) (cancelOne_inv hinv) ?_
      rw [cancelOne_pend_frame he]
      exact hl

theorem pendLookup_append_single_ne {ps : List (String × Nat)} {id id' : String} {v : Nat}
    (h : id' ≠ id) : pendLookup (ps ++ [(id, v)]) id' = pendLookup ps id' := by
  cases hl : pendLookup ps id' with
  | some w => exact pendLookup_append_some hl
  | none =>
    rw [pendLookup_append_none hl, pendLookup, if_neg (fun hh : id = id' => h hh.symm)]
    rfl

theorem pendLookup_append_single_self {ps : List (String × Nat)} {id : String} {v : Nat}
    (h : pendLookup ps id = none) : pendLookup (ps ++ [(id, v)]) id = some v := by
  rw [pendLookup_append_none h, pendLookup, if_pos rfl]

theorem stopStep_inv {f : Option String} {snap : ZoneMap} {rj : Option String} {c : Ctx}
    {id : String} (hinv : Ctx.Inv c) : Ctx.Inv (stopStep f snap rj c id) := by
  have hc := hinv
  obtain ⟨hndP, hndT, hpend, htask⟩ := hinv
  rw [stopStep]
  cases hl : pendLookup c.pending id with
  | some tid =>
    refine ⟨pendErase_keys_nodup hndP, taskErase_tids_nodup hndT, ?_, ?_⟩
    · intro p hp
      rcases mem_pendErase.mp hp with ⟨hpm, hpne⟩
      have hne2 : p.2 ≠ tid := by
        intro he
        have hidm : (id, tid) ∈ c.pending := pendLookup_mem hl
        have hpm2 : (p.1, tid) ∈ c.pending := by rw [← he]; exact hpm
        exact hpne (pendTidInj hc hpm2 hidm)
      exact ⟨(hpend p hpm).1, mem_taskErase.mpr ⟨(hpend p hpm).2, hne2⟩⟩
    · intro t ht
      rcases mem_taskErase.mp ht with ⟨htm, htne⟩
      refine ⟨(htask t htm).1, ?_⟩
      intro zid hz
      have hzp := (htask t htm).2 zid hz
      refine mem_pendErase.mpr ⟨hzp, ?_⟩
      intro he
      have hlz : pendLookup c.pending id = some t.tid := by
        refine mem_pendLookup hndP ?_
        rw [← he]
        exact hzp
      rw [hl] at hlz
      exact htne (Option.some.inj hlz).symm
  | none =>
    refine ⟨?_, ?_, ?_, ?_⟩
    · rw [List.map_append, List.nodup_append]
      refine ⟨hndP, by simp, ?_⟩
      intro a ha hb
      simp only [List.map_cons, List.map_nil, List.mem_singleton] at hb
      subst hb
      exact pendLookup_none_key hl ha
    · rw [List.map_append, List.nodup_append]
      refine ⟨hndT, by simp, ?_⟩
      intro a ha hb
      simp only [List.map_cons, List.map_nil, List.mem_singleton] at hb
      subst hb
      rcases List.mem_map.mp ha with ⟨t, htm, htid⟩
      have hb2 := (htask t htm).1
      omega
    · intro p hp
      rcases List.mem_append.mp hp with hp | hp
      · exact ⟨Nat.lt_succ_of_lt (hpend p hp).1, List.mem_append_left _ (hpend p hp).2⟩
      · rcases List.mem_singleton.mp hp with rfl
        exact ⟨Nat.lt_succ_self _, List.mem_append_right _ (List.mem_singleton_self _)⟩
    · intro t ht
      rcases List.mem_append.mp ht with ht | ht
      · exact ⟨Nat.lt_succ_of_lt (htask t ht).1,
          fun zid hz => List.mem_append_left _ ((htask t ht).2 zid hz)⟩
      · rcases List.mem_singleton.mp ht with rfl
        refine ⟨Nat.lt_succ_self _, fun zid hz => ?_⟩
        have hz2 : id = zid := by simpa [kindZone, Option.mem_def] using hz
        cases hz2
        exact List.mem_append_right _ (List.mem_singleton_self _)

theorem stopStep_pend_frame {f : Option String} {snap : ZoneMap} {rj : Option String}
    {c : Ctx} {id id' : String} (h : id' ≠ id) :
    pendLookup (stopStep f snap rj c id).pending id' = pendLookup c.pending id' := by
  rw [stopStep]
  cases hl : pendLookup c.pending id with
  | some tid => exact pendLookup_erase_ne h
  | none => exact pendLookup_append_single_ne h

theorem stopStep_dead {f : Option String} {snap : ZoneMap} {rj : Option String}
    {c : Ctx} {id : String} {tid : Nat} (h : DeadTid c tid) :
    DeadTid (stopStep f snap rj c id) tid := by
  rw [stopStep]
  cases hl : pendLookup c.pending id with
  | some t' => exact ⟨h.1, fun t ht => h.2 t (mem_taskErase.mp ht).1⟩
  | none =>
    refine ⟨Nat.lt_succ_of_lt h.1, fun t ht => ?_⟩
    rcases List.mem_append.mp ht with ht | ht
    · exact h.2 t ht
    · rcases List.mem_singleton.mp ht with rfl
      intro he
      have hce : c.nextTid = tid := he
      have hb := h.1
      omega

theorem stopStep_nostop {f : Option String} {snap : ZoneMap} {rj : Option String}
    {c : Ctx} {id id' : String} (h : id' ≠ id) (hm : NoStopMsg c id') :
    NoStopMsg (stopStep f snap rj c id) id' := by
  rw [stopStep]
  cases hl : pendLookup c.pending id with
  | none => exact hm
  | some tid =>
    intro np rz rjj
    constructor
    · intro hmem
      rcases List.mem_append.mp hmem with hmm | hmm
      · exact (hm np rz rjj).1 hmm
      · have he := List.mem_singleton.mp hmm
        injection he with htr hnp hrz hrj
        injection htr with hid2
        exact h hid2
    · intro hmem
      rcases List.mem_append.mp hmem with hmm | hmm
      · exact (hm np rz rjj).2 hmm
      · have he := List.mem_singleton.mp hmm
        injection he with htr hnp hrz hrj
        simp at htr

theorem stopStep_mono {f : Option String} {snap : ZoneMap} {rj : Option String}
    {c : Ctx} {id : String} {m : Msg} (h : m ∈ c.msgs) :
    m ∈ (stopStep f snap rj c id).msgs := by
  rw [stopStep]
  cases hl : pendLookup c.pending id with
  | none => exact h
  | some tid => exact List.mem_append_left _ h

theorem stopPhase_cons (f : Option String) (snap : ZoneMap) (rj : Option String)
    (i : String) (ids : List String) (c : Ctx) :
    stopPhase f snap rj (i :: ids) c = stopPhase f snap rj ids (stopStep f snap rj c i) := rfl

theorem stopPhase_inv {f : Option String} {snap : ZoneMap} {rj : Option String}
    (ids : List String) : ∀ c : Ctx, Ctx.Inv c → Ctx.Inv (stopPhase f snap rj ids c) := by
  induction ids with
  | nil => exact fun c h => h
  | cons i ids ih =>
    intro c h
    rw [stopPhase_cons]
    exact ih (stopStep f snap rj c i) (stopStep_inv h)

theorem stopPhase_pend_frame {f : Option String} {snap : ZoneMap} {rj : Option String}
    {ids : List String} {id : String} (h : id ∉ ids) : ∀ c : Ctx,
    pendLookup (stopPhase f snap rj ids c).pending id = pendLookup c.pending id := by
  induction ids with
  | nil => exact fun c => rfl
  | cons i ids ih =>
    intro c
    have hne : id ≠ i := fun he => h (he ▸ List.mem_cons_self i ids)
    have hrest : id ∉ ids := fun hm => h (List.mem_cons_of_mem _ hm)
    rw [stopPhase_cons, ih hrest (stopStep f snap rj c i), stopStep_pend_frame hne]

theorem stopPhase_dead {f : Option String} {snap : ZoneMap} {rj : Option String}
    (ids : List String) (tid : Nat) : ∀ c : Ctx,
    DeadTid c tid → DeadTid (stopPhase f snap rj ids c) tid := by
  induction ids with
  | nil => exact fun c h => h
  | cons i ids ih =>
    intro c h
    rw [stopPhase_cons]
    exact ih (stopStep f snap rj c i) (stopStep_dead h)

theorem stopPhase_nostop {f : Option String} {snap : ZoneMap} {rj : Option String}
    {ids : List String} {id : String} (h : id ∉ ids) : ∀ c : Ctx,
    NoStopMsg c id → NoStopMsg (stopPhase f snap rj ids c) id := by
  induction ids with
  | nil => exact fun c hm => hm
  | cons i ids ih =>
    intro c hm
    have hne : id ≠ i := fun he => h (he ▸ List.mem_cons_self i ids)
    have hrest : id ∉ ids := fun hmm => h (List.mem_cons_of_mem _ hmm)
    rw [stopPhase_cons]
    exact ih hrest (stopStep f snap rj c i) (stopStep_nostop hne hm)

theorem stopPhase_mono {f : Option String} {snap : ZoneMap} {rj : Option String}
    (ids : List String) (m : Msg) : ∀ c : Ctx,
    m ∈ c.msgs → m ∈ (stopPhase f snap rj ids c).msgs := by
  induction ids with
  | nil => exact fun c h => h
  | cons i ids ih =>
    intro c h
    rw [stopPhase_cons]
    exact ih (stopStep f snap rj c i) (stopStep_mono h)

theorem broadcastPhase_pend (f : Option String) (snap : ZoneMap) (rj : Option String)
    (nonStop dcs : List String) (c : Ctx) :
    (broadcastPhase f snap rj nonStop dcs c).pending = c.pending := by
  rw [broadcastPhase]
  split
  · split
    · rfl
    · rfl
  · rfl

theorem broadcastPhase_inv {f : Option String} {snap : ZoneMap} {rj : Option String}
    {nonStop dcs : List String} {c : Ctx} (hinv : Ctx.Inv c) :
    Ctx.Inv (broadcastPhase f snap rj nonStop dcs c) := by
  obtain ⟨hndP, hndT, hpend, htask⟩ := hinv
  rw [broadcastPhase]
  split
  · split
    · refine ⟨hndP, ?_, ?_, ?_⟩
      · rw [List.map_append, List.nodup_append]
        refine ⟨hndT, by simp, ?_⟩
        intro a ha hb
        simp only [List.map_cons, List.map_nil, List.mem_singleton] at hb
        subst hb
        rcases List.mem_map.mp ha with ⟨t, htm, htid⟩
        have hb2 := (htask t htm).1
        omega
      · intro p hp
        exact ⟨Nat.lt_succ_of_lt (hpend p hp).1, List.mem_append_left _ (hpend p hp).2⟩
      · intro t ht
        rcases List.mem_append.mp ht with ht | ht
        · exact ⟨Nat.lt_succ_of_lt (htask t ht).1, (htask t ht).2⟩
        · rcases List.mem_singleton.mp ht with rfl
          refine ⟨Nat.lt_succ_self _, fun zid hz => ?_⟩
          simp [kindZone, Option.mem_def] at hz
    · exact ⟨hndP, hndT, hpend, htask⟩
  · exact ⟨hndP, hndT, hpend, htask⟩

theorem broadcastPhase_dead {f : Option String} {snap : ZoneMap} {rj : Option String}
    {nonStop dcs : List String} {c : Ctx} {tid : Nat} (h : DeadTid c tid) :
    DeadTid (broadcastPhase f snap rj nonStop dcs c) tid := by
  rw [broadcastPhase]
  split
  · split
    · refine ⟨Nat.lt_succ_of_lt h.1, fun t ht => ?_⟩
      rcases List.mem_append.mp ht with ht | ht
      · exact h.2 t ht
      · rcases List.mem_singleton.mp ht with rfl
        intro he
        have hce : c.nextTid = tid := he
        have hb := h.1
        omega
    · exact h
  · exact h

theorem broadcastPhase_nostop {f : Option String} {snap : ZoneMap} {rj : Option String}
    {nonStop dcs : List String} {c : Ctx} {id : String} (hm : NoStopMsg c id) :
    NoStopMsg (broadcastPhase f snap rj nonStop dcs c) id := by
  rw [broadcastPhase]
  split
  · split
    · exact hm
    · intro np rz rjj
      constructor
      · intro hmem
        rcases List.mem_append.mp hmem with hmm | hmm
        · exact (hm np rz rjj).1 hmm
        · have he := List.mem_singleton.mp hmm
          injection he with htr hnp hrz hrj
          simp at htr
      · intro hmem
        rcases List.mem_append.mp hmem with hmm | hmm
        · exact (hm np rz rjj).2 hmm
        · have he := List.mem_singleton.mp hmm
          injection he with htr hnp hrz hrj
          simp at htr
  · exact hm

theorem broadcastPhase_mono {f : Option String} {snap : ZoneMap} {rj : Option String}
    {nonStop dcs : List String} {c : Ctx} {m : Msg} (h : m ∈ c.msgs) :
    m ∈ (broadcastPhase f snap rj nonStop dcs c).msgs := by
  rw [broadcastPhase]
  split
  · split
    · exact h
    · exact List.mem_append_left _ h
  · exact h

theorem stopPhase_spec_mem (f : Option String) (snap : ZoneMap) (rj : Option String)
    (id : String) : ∀ ids : List String, id ∈ ids → ids.Nodup → ∀ c : Ctx, Ctx.Inv c →
    ((∀ tid, pendLookup c.pending id = some tid →
       Msg.zonesChanged (.doubleStop id) (buildWs f snap) (zoneVals snap) rj ∈
           (stopPhase f snap rj ids c).msgs ∧
         pendLookup (stopPhase f snap rj ids c).pending id = none ∧
         DeadTid (stopPhase f snap rj ids c) tid) ∧
     (pendLookup c.pending id = none →
       (∃ tid, pendLookup (stopPhase f snap rj ids c).pending id = some tid) ∧
       (NoStopMsg c id → NoStopMsg (stopPhase f snap rj ids c) id))) := by
  intro ids
  induction ids with
  | nil => intro hid; simp at hid
  | cons i ids ih =>
    intro hid hnd c hinv
    rcases List.nodup_cons.mp hnd with ⟨hnotin, hnd2⟩
    by_cases he : id = i
    · cases he
      constructor
      · intro tid hl
        have hstep : stopStep f snap rj c id =
            ⟨pendErase c.pending id, taskErase c.tasks tid, c.nextTid,
             c.msgs ++ [Msg.zonesChanged (.doubleStop id) (buildWs f snap) (zoneVals snap) rj]⟩ := by
          rw [stopStep, hl]
        rw [stopPhase_cons, hstep]
        refine ⟨?_, ?_, ?_⟩
        · exact stopPhase_mono ids _ _
            (List.mem_append_right _ (List.mem_singleton_self _))
        · rw [stopPhase_pend_frame hnotin]
          exact pendLookup_erase_self _ _
        · refine stopPhase_dead ids tid _ ⟨(hinv.2.2.1 _ (pendLookup_mem hl)).1, ?_⟩
          intro t ht
          exact (mem_taskErase.mp ht).2
      · intro hl
        have hstep : stopStep f snap rj c id =
            ⟨c.pending ++ [(id, c.nextTid)],
             c.tasks ++ [⟨c.nextTid, .stopSettle id, STOP_BROADCAST_DELAY_MS⟩],
             c.nextTid + 1, c.msgs⟩ := by
          rw [stopStep, hl]
        rw [stopPhase_cons, hstep]
        constructor
        · refine ⟨c.nextTid, ?_⟩
          rw [stopPhase_pend_frame hnotin]
          exact pendLookup_append_single_self hl
        · intro hns
          exact stopPhase_nostop hnotin _ hns
    · have hid2 : id ∈ ids := (List.mem_cons.mp hid).resolve_left he
      have hinv2 : Ctx.Inv (stopStep f snap rj c i) := stopStep_inv hinv
      constructor
      · intro tid hl
        rw [stopPhase_cons]
        exact (ih hid2 hnd2 (stopStep f snap rj c i) hinv2).1 tid
          (by rw [stopStep_pend_frame he]; exact hl)
      · intro hl
        rw [stopPhase_cons]
        have h2 := (ih hid2 hnd2 (stopStep f snap rj c i) hinv2).2
          (by rw [stopStep_pend_frame he]; exact hl)
        exact ⟨h2.1, fun hns => h2.2 (stopStep_nostop he hns)⟩

/-! ## C3: zone removal and pending tasks -/

theorem zoneLookup_zoneErase_self (m : ZoneMap) (id : String) :
    zoneLookup (zoneErase m id) id = none := by
  induction m with
  | nil => rfl
  | cons a m ih =>
    rcases a with ⟨k, v⟩
    by_cases h : k = id
    · rw [zoneErase, if_pos h]
      exact ih
    · rw [zoneErase, if_neg h, zoneLookup, if_neg h]
      exact ih

theorem zoneLookup_zoneErase_none {m : ZoneMap} {id j : String}
    (h : zoneLookup m id = none) : zoneLookup (zoneErase m j) id = none := by
  induction m with
  | nil => rfl
  | cons a m ih =>
    rcases a with ⟨k, v⟩
    rw [zoneLookup] at h
    by_cases hk : k = id
    · rw [if_pos hk] at h
      exact absurd h (by simp)
    · rw [if_neg hk] at h
      by_cases hj : k = j
      · rw [zoneErase, if_pos hj]
        exact ih h
      · rw [zoneErase, if_neg hj, zoneLookup, if_neg hk]
        exact ih h

theorem zoneEraseFold_none (ids : List String) : ∀ (m : ZoneMap) (id : String),
    zoneLookup m id = none → zoneLookup (ids.foldl zoneErase m) id = none := by
  induction ids with
  | nil => exact fun m id h => h
  | cons i ids ih =>
    intro m id h
    rw [List.foldl_cons]
    exact ih (zoneErase m i) id (zoneLookup_zoneErase_none h)

theorem zoneEraseFold_mem (ids : List String) : ∀ (m : ZoneMap) (id : String),
    id ∈ ids → zoneLookup (ids.foldl zoneErase m) id = none := by
  induction ids with
  | nil => intro m id h; simp at h
  | cons i ids ih =>
    intro m id h
    rw [List.foldl_cons]
    by_cases he : id = i
    · rw [he]
      exact zoneEraseFold_none ids (zoneErase m i) i (zoneLookup_zoneErase_self m i)
    · exact ih (zoneErase m i) id ((List.mem_cons.mp h).resolve_left he)

/-- C3 (amended): a zones-removed batch removes the named zones from the
store and immediately broadcasts the new view (which no longer contains
them), but it does not cancel any pending debounce task: `pending_stops` and
the live task list are untouched, so a pending `StopSettle` for a removed
zone remains live and later fires, emitting an additional `ZonesChanged`
(`c3_counterexample`). -/
theorem c3_removed_keeps_tasks (dcsFmt : Option String) (st : ClientState)
    (ids : List String) :
    (handleZonesRemoved dcsFmt st ids).1.pendingStops = st.pendingStops ∧
    (handleZonesRemoved dcsFmt st ids).1.tasks = st.tasks ∧
    (handleZonesRemoved dcsFmt st ids).2 =
      [Msg.zonesChanged .removal (buildWs dcsFmt (ids.foldl zoneErase st.zones))
        (zoneVals (ids.foldl zoneErase st.zones)) st.zonesRawJson] ∧
    (∀ id ∈ ids, zoneLookup (handleZonesRemoved dcsFmt st ids).1.zones id = none) := by
  refine ⟨rfl, rfl, rfl, ?_⟩
  intro id hid
  exact zoneEraseFold_mem ids st.zones id hid

/-- C3 witness: the amended theorem applied at a state with a pending stop
for `z1` and the removal batch naming `z1`. -/
theorem c3_removed_keeps_tasks_witness :
    (handleZonesRemoved none stPend ["z1"]).1.pendingStops = stPend.pendingStops ∧
    (handleZonesRemoved none stPend ["z1"]).1.tasks = stPend.tasks ∧
    (handleZonesRemoved none stPend ["z1"]).2 =
      [Msg.zonesChanged .removal (buildWs none (["z1"].foldl zoneErase stPend.zones))
        (zoneVals (["z1"].foldl zoneErase stPend.zones)) stPend.zonesRawJson] ∧
    (∀ id ∈ ["z1"], zoneLookup (handleZonesRemoved none stPend ["z1"]).1.zones id = none) :=
  c3_removed_keeps_tasks none stPend ["z1"]

/-! ## C2: the stop-settle policy per stopped zone -/

theorem hzc_msgs (dcsFmt : Option String) (st : ClientState) (batch : List Zone)
    (rawJson : Option String) :
    (handleZonesChanged dcsFmt st batch rawJson).2.1 =
      (hzcCtx dcsFmt st batch rawJson).msgs := rfl

theorem hzc_pending (dcsFmt : Option String) (st : ClientState) (batch : List Zone)
    (rawJson : Option String) :
    (handleZonesChanged dcsFmt st batch rawJson).1.pendingStops =
      (hzcCtx dcsFmt st batch rawJson).pending := rfl

theorem hzc_tasks (dcsFmt : Option String) (st : ClientState) (batch : List Zone)
    (rawJson : Option String) :
    (handleZonesChanged dcsFmt st batch rawJson).1.tasks =
      (hzcCtx dcsFmt st batch rawJson).tasks := rfl

theorem hzcCtx_eq (dcsFmt : Option String) (st : ClientState) (batch : List Zone)
    (rawJson : Option String) :
    hzcCtx dcsFmt st batch rawJson =
      broadcastPhase dcsFmt (snapAfter st batch) rawJson (nonStopIds (snapAfter st batch))
        (dcsPlayingIds (snapAfter st batch))
        (stopPhase dcsFmt (snapAfter st batch) rawJson (stoppedIds (snapAfter st batch))
          (cancelPhase (nonStopIds (snapAfter st batch))
            ⟨st.pendingStops, st.tasks, st.nextTid, []⟩)) := rfl

theorem stoppedIds_nodup {m : ZoneMap} (hnd : (m.map Prod.fst).Nodup) :
    (stoppedIds m).Nodup := by
  rw [stoppedIds]
  exact List.Nodup.sublist (List.Sublist.map Prod.fst (List.filter_sublist m)) hnd

/-- C2: for every zones-changed batch and zone id in the stopped set of the
resulting snapshot, a pending `StopSettle` entry (double stop) is cancelled
and a `ZonesChanged` built from the current snapshot is broadcast immediately
leaving no pending entry for the id, while an id with no pending entry gets a
fresh live `StopSettle` task with the fixed delay and this batch emits no
stop broadcast (double-stop or delayed-stop) for the id. -/
theorem c2_stop_debounce (dcsFmt : Option String) (st : ClientState) (batch : List Zone)
    (rawJson : Option String) (id : String) (hwf : WF st)
    (hid : id ∈ stoppedIds (snapAfter st batch)) :
    C2Concl dcsFmt st batch rawJson id := by
  obtain ⟨hinv, hznd⟩ := hwf
  have hsnd : ((snapAfter st batch).map Prod.fst).Nodup := snapAfter_keys_nodup hznd
  have hnons : id ∉ nonStopIds (snapAfter st batch) := stopped_not_nonStop hsnd hid
  have hstnd : (stoppedIds (snapAfter st batch)).Nodup := stoppedIds_nodup hsnd
  have hinv0 : Ctx.Inv (⟨st.pendingStops, st.tasks, st.nextTid, []⟩ : Ctx) := hinv
  have hc1inv : Ctx.Inv (cancelPhase (nonStopIds (snapAfter st batch))
      ⟨st.pendingStops, st.tasks, st.nextTid, []⟩) :=
    cancelPhase_inv _ _ hinv0
  have hc1pend : pendLookup (cancelPhase (nonStopIds (snapAfter st batch))
        (⟨st.pendingStops, st.tasks, st.nextTid, []⟩ : Ctx)).pending id =
      pendLookup st.pendingStops id :=
    cancelPhase_pend_frame hnons _
  have hmain := stopPhase_spec_mem dcsFmt (snapAfter st batch) rawJson id
    (stoppedIds (snapAfter st batch)) hid hstnd
    (cancelPhase (nonStopIds (snapAfter st batch))
      ⟨st.pendingStops, st.tasks, st.nextTid, []⟩) hc1inv
  constructor
  · intro tid hl
    have h1 := hmain.1 tid (by rw [hc1pend]; exact hl)
    refine ⟨?_, ?_, ?_⟩
    · rw [hzc_msgs, hzcCtx_eq]
      exact broadcastPhase_mono h1.1
    · rw [hzc_pending, hzcCtx_eq, broadcastPhase_pend]
      exact h1.2.1
    · intro t ht
      rw [hzc_tasks, hzcCtx_eq] at ht
      exact (broadcastPhase_dead h1.2.2).2 t ht
  · intro hl
    have h2 := hmain.2 (by rw [hc1pend]; exact hl)
    constructor
    · rcases h2.1 with ⟨tid, htid⟩
      have hfpend : pendLookup
          (handleZonesChanged dcsFmt st batch rawJson).1.pendingStops id = some tid := by
        rw [hzc_pending, hzcCtx_eq, broadcastPhase_pend]
        exact htid
      have hfinv : Ctx.Inv (hzcCtx dcsFmt st batch rawJson) := by
        rw [hzcCtx_eq]
        exact broadcastPhase_inv (stopPhase_inv _ _ hc1inv)
      have hmem : (id, tid) ∈ (hzcCtx dcsFmt st batch rawJson).pending := by
        refine pendLookup_mem ?_
        rw [← hzc_pending]
        exact hfpend
      refine ⟨tid, hfpend, ?_⟩
      rw [hzc_tasks]
      exact (hfinv.2.2.1 _ hmem).2
    · have hns1 : NoStopMsg (cancelPhase (nonStopIds (snapAfter st batch))
          (⟨st.pendingStops, st.tasks, st.nextTid, []⟩ : Ctx)) id := by
        intro np rz rjj
        have hmsgs := (cancelPhase_spec (nonStopIds (snapAfter st batch))
          (⟨st.pendingStops, st.tasks, st.nextTid, []⟩ : Ctx)).1
        constructor
        · intro hmem
          rw [hmsgs] at hmem
          simp at hmem
        · intro hmem
          rw [hmsgs] at hmem
          simp at hmem
      have hns3 : NoStopMsg (hzcCtx dcsFmt st batch rawJson) id := by
        rw [hzcCtx_eq]
        exact broadcastPhase_nostop (h2.2 hns1)
      intro np rz rjj
      rw [hzc_msgs]
      exact ⟨(hns3 np rz rjj).1, (hns3 np rz rjj).2⟩

/-- C2 witness: the theorem applied in both regimes — at `stPend` (a pending
stop for `z1` exists, batch reports `z1` stopped again). -/
theorem c2_stop_debounce_witness :
    WF stPend ∧ "z1" ∈ stoppedIds (snapAfter stPend [z1s]) ∧
    C2Concl none stPend [z1s] none "z1" :=
  ⟨⟨by decide, by decide⟩, by decide,
   c2_stop_debounce none stPend [z1s] none "z1" ⟨by decide, by decide⟩ (by decide)⟩

/-! ## C1: cancellation on leaving the stopped state -/

/-- C1 (amended): a zones-changed batch whose snapshot has `id` in a
non-stop state cancels `id`'s pending `StopSettle`: afterwards no entry for
`id` remains, its task id is dead in the live-task list, and firing a dead
task id is a no-op of `step`, so the stale stop broadcast can never be
emitted.  The further claim that no `ZonesChanged` reporting the zone Stopped
is ever emitted is refuted by `c1_counterexample` (a mixed snapshot is
broadcast immediately while the zone is stopped). -/
theorem c1_cancel_on_nonstop (dcsFmt : Option String) (st : ClientState) (batch : List Zone)
    (rawJson : Option String) (tid : Nat) (id : String) (hwf : WF st)
    (hl : pendLookup st.pendingStops id = some tid)
    (hns : id ∈ nonStopIds (snapAfter st batch)) :
    C1Concl dcsFmt st batch rawJson tid id := by
  obtain ⟨hinv, hznd⟩ := hwf
  have hsnd : ((snapAfter st batch).map Prod.fst).Nodup := snapAfter_keys_nodup hznd
  have hnstop : id ∉ stoppedIds (snapAfter st batch) :=
    fun hs => stopped_not_nonStop hsnd hs hns
  have hinv0 : Ctx.Inv (⟨st.pendingStops, st.tasks, st.nextTid, []⟩ : Ctx) := hinv
  have hkill := cancelPhase_kill hns
    (⟨st.pendingStops, st.tasks, st.nextTid, []⟩ : Ctx) hinv0 hl
  rcases hkill with ⟨hnone, hdead⟩
  have hs_pend : pendLookup (stopPhase dcsFmt (snapAfter st batch) rawJson
      (stoppedIds (snapAfter st batch))
      (cancelPhase (nonStopIds (snapAfter st batch))
        ⟨st.pendingStops, st.tasks, st.nextTid, []⟩)).pending id = none := by
    rw [stopPhase_pend_frame hnstop]
    exact hnone
  have hs_dead := @stopPhase_dead dcsFmt (snapAfter st batch) rawJson
    (stoppedIds (snapAfter st batch)) tid _ hdead
  refine ⟨?_, ?_, ?_⟩
  · rw [hzc_pending, hzcCtx_eq, broadcastPhase_pend]
    exact hs_pend
  · intro t ht
    rw [hzc_tasks, hzcCtx_eq] at ht
    exact (broadcastPhase_dead hs_dead).2 t ht
  · intro s hs
    have hfind : taskFind s.tasks tid = none := taskFind_none.mpr hs
    have hft : fireTask dcsFmt s tid = (s, []) := by
      rw [fireTask, hfind]
    show ((fireTask dcsFmt s tid).1, (fireTask dcsFmt s tid).2, ([] : List String)) =
      (s, [], [])
    rw [hft]

/-- C1 witness: the amended theorem applied at `stPend` (pending stop for
`z1`, task 0) with a batch returning `z1` to Playing. -/
theorem c1_cancel_on_nonstop_witness :
    WF stPend ∧ pendLookup stPend.pendingStops "z1" = some 0 ∧
    "z1" ∈ nonStopIds (snapAfter stPend [z1p]) ∧
    C1Concl none stPend [z1p] none 0 "z1" :=
  ⟨⟨by decide, by decide⟩, by decide, by decide,
   c1_cancel_on_nonstop none stPend [z1p] none 0 "z1" ⟨by decide, by decide⟩
     (by decide) (by decide)⟩

/-! ## C5: the stop-settle table discipline across every event -/

theorem zoneEraseFold_nodup (ids : List String) : ∀ m : ZoneMap,
    (m.map Prod.fst).Nodup → ((ids.foldl zoneErase m).map Prod.fst).Nodup := by
  induction ids with
  | nil => exact fun m h => h
  | cons i ids ih =>
    intro m h
    rw [List.foldl_cons]
    exact ih (zoneErase m i) (zoneErase_keys_nodup h)

theorem patchSeek_keys (m : ZoneMap) (id : String) (pos : Option Int) :
    (patchSeek m id pos).map Prod.fst = m.map Prod.fst := by
  rw [patchSeek, List.map_map]
  refine List.map_congr_left ?_
  intro p _
  by_cases h : p.1 = id
  · simp [h]
  · simp [h]

theorem seekFoldPatch_keys (seeks : List ZoneSeek) : ∀ m : ZoneMap,
    (seeks.foldl (fun mm s => patchSeek mm s.zone_id s.seek_position) m).map Prod.fst =
      m.map Prod.fst := by
  induction seeks with
  | nil => exact fun m => rfl
  | cons sk seeks ih =>
    intro m
    rw [List.foldl_cons, ih, patchSeek_keys]

/-- C5 (amended): well-formedness of the stop-settle bookkeeping is preserved
by every event: `pending_stops` holds at most one entry per zone id, each
entry points at a live `StopSettle` task with the stop delay, and every live
`StopSettle` task is pointed at by exactly its zone's entry.  The claim that
every settle task (including `FormatSettle`) lives in this cancellable
per-zone table is refuted by `c5_counterexample`: the dCS format-delay
broadcast is a fire-and-forget spawned task outside the table. -/
theorem c5_stop_table_discipline (dcsFmt : Option String) (st : ClientState) (e : Event)
    (hwf : WF st) : WF (step dcsFmt st e).1 := by
  obtain ⟨hinv, hznd⟩ := hwf
  cases e with
  | registered nm => exact ⟨hinv, hznd⟩
  | lost => exact ⟨hinv, List.nodup_nil⟩
  | zonesChanged batch rawJson =>
    have hI : Ctx.Inv (hzcCtx dcsFmt st batch rawJson) := by
      rw [hzcCtx_eq]
      exact broadcastPhase_inv (stopPhase_inv _ _ (cancelPhase_inv _ _ hinv))
    exact ⟨hI, snapAfter_keys_nodup hznd⟩
  | zonesRemoved ids =>
    exact ⟨hinv, zoneEraseFold_nodup ids st.zones hznd⟩
  | zonesSeek seeks =>
    refine ⟨hinv, ?_⟩
    show (((seeks.foldl seekStep (st.zones, [])).1).map Prod.fst).Nodup
    rw [seekFold_fst, seekFoldPatch_keys]
    exact hznd
  | jpeg key bytes => exact ⟨hinv, hznd⟩
  | png key bytes => exact ⟨hinv, hznd⟩
  | queueSnapshot items =>
    show WF (handleQueueSnapshot st items).1
    rw [handleQueueSnapshot]
    split
    · exact ⟨hinv, hznd⟩
    · exact ⟨hinv, hznd⟩
  | queueChanges ops =>
    show WF (handleQueueChanges st ops).1
    rw [handleQueueChanges]
    split
    · split
      · exact ⟨hinv, hznd⟩
      · exact ⟨hinv, hznd⟩
    · exact ⟨hinv, hznd⟩
  | fire tid =>
    show WF (fireTask dcsFmt st tid).1
    rw [fireTask]
    split
    · exact ⟨hinv, hznd⟩
    · rename_i t hf
      have hc := hinv
      obtain ⟨hndP, hndT, hpend, htask⟩ := hinv
      rcases taskFind_some hf with ⟨htm, htid⟩
      split
      · rename_i zid hk
        have hzp : (zid, tid) ∈ st.pendingStops := by
          have h0 := (htask t htm).2 zid (by rw [hk]; rfl)
          rw [htid] at h0
          exact h0
        refine ⟨⟨pendErase_keys_nodup hndP, taskErase_tids_nodup hndT, ?_, ?_⟩, hznd⟩
        · intro p hp
          rcases mem_pendErase.mp hp with ⟨hpm, hpne⟩
          have hne2 : p.2 ≠ tid := by
            intro he
            have hpm2 : (p.1, tid) ∈ st.pendingStops := by rw [← he]; exact hpm
            exact hpne (pendTidInj hc hpm2 hzp)
          exact ⟨(hpend p hpm).1, mem_taskErase.mpr ⟨(hpend p hpm).2, hne2⟩⟩
        · intro t' ht'
          rcases mem_taskErase.mp ht' with ⟨htm', htne'⟩
          refine ⟨(htask t' htm').1, ?_⟩
          intro zid' hz'
          have hzp' := (htask t' htm').2 zid' hz'
          refine mem_pendErase.mpr ⟨hzp', ?_⟩
          intro he
          have hzp2 : (zid, t'.tid) ∈ st.pendingStops := by rw [← he]; exact hzp'
          exact htne' (pendKeyInj hndP hzp2 hzp)
      · rename_i hk
        refine ⟨⟨hndP, taskErase_tids_nodup hndT, ?_, ?_⟩, hznd⟩
        · intro p hp
          have hne2 : p.2 ≠ tid := by
            intro he
            have hmemt : (⟨p.2, TaskKind.stopSettle p.1, STOP_BROADCAST_DELAY_MS⟩ :
                PendingTask) ∈ st.tasks := (hpend p hp).2
            have heq := taskTidInj hndT hmemt htm (by rw [htid]; exact he)
            have hkind := congrArg PendingTask.kind heq
            rw [hk] at hkind
            simp at hkind
          exact ⟨(hpend p hp).1, mem_taskErase.mpr ⟨(hpend p hp).2, hne2⟩⟩
        · intro t' ht'
          rcases mem_taskErase.mp ht' with ⟨htm', _⟩
          exact htask t' htm'

/-- C5 witness: well-formedness preserved across a stop-reporting batch from
the initial state. -/
theorem c5_stop_table_discipline_witness :
    WF initState ∧ WF (step none initState (.zonesChanged [z1s] none)).1 :=
  ⟨⟨by decide, by decide⟩,
   c5_stop_table_discipline none initState (.zonesChanged [z1s] none)
     ⟨by decide, by decide⟩⟩

end RoonRd
